import Mathlib

/-!
# Bounded blocking queue (`syncx/blocking_queue.go`)

A shallow embedding of the circular-buffer queue of package `syncx`.

* Go's `int` has `Arch.bits` bits (32 or 64), and `make([]T, n)` accepts
  lengths up to `Arch.maxLen`.  The sum `headIdx + size - 1` in `PeekLast`
  wraps around (`wrapInt`).  The steps `size++`, `size--`, `tailIdx++`,
  `headIdx++` are written on `Int`: in a state reachable from
  `NewBlockingQueue a C` their operands lie in `[0, C]` (`Inv.int_range`), an
  increment is taken only below `C` and the decrement only above 0, and
  `C ≤ math.MaxInt` (`Reachable.cap_le`).
* A Go slice of fixed length is a `List`; a read or write outside
  `[0, len)` is a run-time panic, modelled by `none` / `Outcome.panic`.
* Every method holds the mutex for its whole body, so a method is one atomic
  step on the queue state.  A method whose wait loop condition is true gives up
  the mutex without having changed anything: `Outcome.blocked`.
* The zero value of `T` is `default`.
* Goroutines waiting on the two condition variables are added to the queue
  state in `Sys`; a scheduler step (`sysStep`) is one critical section of
  `Take` or `Put`.
* `Map` is modelled from the spec, its source file not being among the
  sources; the generic set of `set/set.go` follows in namespace `set`.
-/

namespace syncx

/-- How a call of a queue method ends: it returns, it waits on a condition
variable, or it panics. -/
inductive Outcome (α : Type) where
  | done (a : α)
  | blocked
  | panic
  deriving DecidableEq, Repr

/-- The fields of the Go struct `blockingQueue[T]` other than the mutex and the
two condition variables. -/
structure blockingQueue (T : Type) where
  items : List T
  headIdx : Int
  tailIdx : Int
  size : Int
  maxSize : Int
  deriving DecidableEq, Repr

variable {T : Type}

/-- Constants of the platform and of the element type that the source does
not fix: the width of Go's `int` (32 or 64 bits) and the largest length
`make([]T, n)` accepts for the element type.  Above that length `makeslice`
panics with "len out of range"; the bound depends on the element size and
on the allocation limit of the platform and never exceeds `math.MaxInt`. -/
structure Arch where
  bits : Nat
  maxLen : Int
  maxLen_nonneg : 0 ≤ maxLen
  maxLen_le : maxLen ≤ ((2 ^ (bits - 1) : Nat) : Int) - 1

/-- Half the number of `int` values, `2 ^ (bits - 1)`. -/
def Arch.half (a : Arch) : Int :=
  ((2 ^ (a.bits - 1) : Nat) : Int)

/-- The constant `math.MaxInt`. -/
def Arch.maxInt (a : Arch) : Int :=
  a.half - 1

/-- Go's `int` arithmetic: a result outside `[-2 ^ (bits - 1), 2 ^ (bits - 1))`
wraps around modulo `2 ^ bits`. -/
def wrapInt (a : Arch) (x : Int) : Int :=
  (x + a.half) % (2 * a.half) - a.half

/-- The platform linux/amd64 with `int` elements: 64-bit `int`, and
`make([]int, n)` accepts `n` up to `2 ^ 48 / 8` (allocation limit over element
size). -/
def amd64Int : Arch :=
  { bits := 64
    maxLen := ((2 ^ 45 : Nat) : Int)
    maxLen_nonneg := by decide
    maxLen_le := by decide }

/-- The platform linux/386 with one-byte elements: 32-bit `int`, and
`make([]byte, n)` accepts every `n` up to `math.MaxInt32`. -/
def i386Byte : Arch :=
  { bits := 32
    maxLen := ((2 ^ 31 : Nat) : Int) - 1
    maxLen_nonneg := by decide
    maxLen_le := by decide }

/-- Slice read `xs[i]`: `none` is the index-out-of-range panic. -/
def readAt (xs : List T) (i : Int) : Option T :=
  if i < 0 then none else xs[i.toNat]?

/-- Slice write `xs[i] = v`: `none` is the index-out-of-range panic. -/
def writeAt (xs : List T) (i : Int) (v : T) : Option (List T) :=
  if i < 0 then none
  else if i.toNat < xs.length then some (xs.set i.toNat v)
  else none

/-- Constructor `NewBlockingQueue`: `make([]T, maxSize)` panics on a negative
length and on a length above `maxLen`; otherwise every slot holds the zero
value. -/
def NewBlockingQueue [Inhabited T] (a : Arch) (maxSize : Int) : Outcome (blockingQueue T) :=
  if maxSize < 0 ∨ a.maxLen < maxSize then Outcome.panic
  else Outcome.done
    { items := List.replicate maxSize.toNat default
      headIdx := 0
      tailIdx := 0
      size := 0
      maxSize := maxSize }

/-- Method `Put`: waits while `size == maxSize`, then writes at `tailIdx`. -/
def Put (bq : blockingQueue T) (item : T) : Outcome (blockingQueue T) :=
  if bq.size = bq.maxSize then Outcome.blocked
  else
    match writeAt bq.items bq.tailIdx item with
    | none => Outcome.panic
    | some items1 =>
      let size1 := bq.size + 1
      let tailIdx1 := bq.tailIdx + 1
      let tailIdx2 := if tailIdx1 ≥ bq.maxSize then 0 else tailIdx1
      Outcome.done
        { bq with items := items1, size := size1, tailIdx := tailIdx2 }

/-- Method `dequeue`: reads the slot at `headIdx`, clears it, steps `headIdx`
(wrapping at `len(items)`) and decrements `size`. -/
def dequeue [Inhabited T] (bq : blockingQueue T) : Outcome (T × blockingQueue T) :=
  match readAt bq.items bq.headIdx with
  | none => Outcome.panic
  | some item =>
    match writeAt bq.items bq.headIdx default with
    | none => Outcome.panic
    | some items1 =>
      let headIdx1 := bq.headIdx + 1
      let headIdx2 := if headIdx1 = (bq.items.length : Int) then 0 else headIdx1
      Outcome.done
        (item, { bq with items := items1, headIdx := headIdx2, size := bq.size - 1 })

/-- Method `Take`: waits while `size == 0`, then dequeues. -/
def Take [Inhabited T] (bq : blockingQueue T) : Outcome (T × blockingQueue T) :=
  if bq.size = 0 then Outcome.blocked else dequeue bq

/-- Method `Poll`: the zero value on an empty queue, otherwise dequeues. -/
def Poll [Inhabited T] (bq : blockingQueue T) : Outcome (T × blockingQueue T) :=
  if bq.size = 0 then Outcome.done (default, bq) else dequeue bq

/-- Method `CompareAndPoll`: dequeues when the queue is non-empty and `compare`
accepts the slot at `headIdx`. -/
def CompareAndPoll [Inhabited T] (bq : blockingQueue T) (compare : T → Bool) :
    Outcome (T × blockingQueue T) :=
  if bq.size = 0 then Outcome.done (default, bq)
  else
    match readAt bq.items bq.headIdx with
    | none => Outcome.panic
    | some front =>
      if compare front then dequeue bq else Outcome.done (default, bq)

/-- Method `Peek`. -/
def Peek [Inhabited T] (bq : blockingQueue T) : Outcome (T × blockingQueue T) :=
  if bq.size = 0 then Outcome.done (default, bq)
  else
    match readAt bq.items bq.headIdx with
    | none => Outcome.panic
    | some item => Outcome.done (item, bq)

/-- The index `PeekLast` computes, `(headIdx + size - 1) % maxSize` in `int`
arithmetic: the sum and the difference wrap around, and `%` truncates towards
zero. -/
def peekLastIdx (a : Arch) (bq : blockingQueue T) : Int :=
  Int.tmod (wrapInt a (wrapInt a (bq.headIdx + bq.size) - 1)) bq.maxSize

/-- Method `PeekLast`: the zero value on an empty queue, otherwise the slot at
the index it computes; `%` panics on a zero divisor. -/
def PeekLast [Inhabited T] (a : Arch) (bq : blockingQueue T) :
    Outcome (T × blockingQueue T) :=
  if bq.size = 0 then Outcome.done (default, bq)
  else if bq.maxSize = 0 then Outcome.panic
  else
    let idx := peekLastIdx a bq
    match readAt bq.items idx with
    | none => Outcome.panic
    | some item => Outcome.done (item, bq)

/-- Method `Size`. -/
def Size (bq : blockingQueue T) : Outcome (Int × blockingQueue T) :=
  Outcome.done (bq.size, bq)

/-- The loop of `ReadableSlice` with `n` iterations left: `res[i] =
items[readIdx]`, then `readIdx` steps and wraps at `maxSize`. -/
def readLoop (items : List T) (maxSize : Int) :
    Nat → Int → Int → List T → Option (List T)
  | 0, _, _, res => some res
  | n + 1, i, readIdx, res =>
    match readAt items readIdx with
    | none => none
    | some v =>
      match writeAt res i v with
      | none => none
      | some res1 =>
        let readIdx1 := readIdx + 1
        let readIdx2 := if readIdx1 = maxSize then 0 else readIdx1
        readLoop items maxSize n (i + 1) readIdx2 res1

/-- Method `ReadableSlice`: `make([]T, size)` panics on a negative size; the
loop runs for `i = 0, …, size - 1`. -/
def ReadableSlice [Inhabited T] (bq : blockingQueue T) :
    Outcome (List T × blockingQueue T) :=
  if bq.size < 0 then Outcome.panic
  else
    match readLoop bq.items bq.maxSize bq.size.toNat 0 bq.headIdx
        (List.replicate bq.size.toNat default) with
    | none => Outcome.panic
    | some res => Outcome.done (res, bq)

/-- A call of one of the eight interface methods. -/
inductive Op (T : Type) where
  | put (item : T)
  | take
  | poll
  | compareAndPoll (compare : T → Bool)
  | peek
  | peekLast
  | size
  | readableSlice

/-- What a call returned. -/
inductive Ret (T : Type) where
  | unit
  | val (v : T)
  | int (n : Int)
  | slice (xs : List T)
  deriving DecidableEq, Repr

/-- Lift a method result to the common result type. -/
def Outcome.ret {α β : Type} (f : α → Ret T) :
    Outcome (α × β) → Outcome (Ret T × β)
  | Outcome.done (a, s) => Outcome.done (f a, s)
  | Outcome.blocked => Outcome.blocked
  | Outcome.panic => Outcome.panic

/-- One call on the queue. -/
def exec [Inhabited T] (a : Arch) (bq : blockingQueue T) : Op T → Outcome (Ret T × blockingQueue T)
  | Op.put item =>
    match Put bq item with
    | Outcome.done bq1 => Outcome.done (Ret.unit, bq1)
    | Outcome.blocked => Outcome.blocked
    | Outcome.panic => Outcome.panic
  | Op.take => (Take bq).ret Ret.val
  | Op.poll => (Poll bq).ret Ret.val
  | Op.compareAndPoll compare => (CompareAndPoll bq compare).ret Ret.val
  | Op.peek => (Peek bq).ret Ret.val
  | Op.peekLast => (PeekLast a bq).ret Ret.val
  | Op.size => (Size bq).ret Ret.int
  | Op.readableSlice => (ReadableSlice bq).ret Ret.slice

/-- States reachable from `NewBlockingQueue a C` by calls that return. -/
inductive Reachable [Inhabited T] (a : Arch) (C : Int) : blockingQueue T → Prop where
  | init {bq : blockingQueue T} :
      NewBlockingQueue a C = Outcome.done bq → Reachable a C bq
  | step {bq bq1 : blockingQueue T} (op : Op T) (r : Ret T) :
      Reachable a C bq → exec a bq op = Outcome.done (r, bq1) → Reachable a C bq1

/-- The item a call puts, if it is a `Put`. -/
def putBy : Op T → List T
  | Op.put item => [item]
  | _ => []

/-- The item a call removed, if it removed one: the value it returned, when
the call made `size` smaller. -/
def removedBy (before after : blockingQueue T) : Ret T → List T
  | Ret.val v => if after.size < before.size then [v] else []
  | _ => []

/-- Run calls one after the other, each on the state the previous one left;
the run stops at the first call that waits or panics. -/
def run [Inhabited T] (a : Arch) : blockingQueue T → List (Op T) →
    Outcome (List (Ret T) × blockingQueue T)
  | bq, [] => Outcome.done ([], bq)
  | bq, op :: ops =>
    match exec a bq op with
    | Outcome.done (r, bq1) =>
      match run a bq1 ops with
      | Outcome.done (rs, bq2) => Outcome.done (r :: rs, bq2)
      | Outcome.blocked => Outcome.blocked
      | Outcome.panic => Outcome.panic
    | Outcome.blocked => Outcome.blocked
    | Outcome.panic => Outcome.panic

/-- The items put by a run of calls, in order. -/
def putsOf (ops : List (Op T)) : List T :=
  ops.flatMap putBy

/-- The items removed along a run of calls, in order. -/
def removedIn [Inhabited T] (a : Arch) : blockingQueue T → List (Op T) → List T
  | _, [] => []
  | bq, op :: ops =>
    match exec a bq op with
    | Outcome.done (r, bq1) => removedBy bq bq1 r ++ removedIn a bq1 ops
    | _ => []

/-- Index of the `i`-th logical slot of a circular buffer of length `C` whose
front is at `h`. -/
def wrapIdx (C h i : Nat) : Nat :=
  if h + i < C then h + i else h + i - C

/-- The live elements front to back: slot `headIdx + i`, wrapped, for
`i < size`. -/
def contents [Inhabited T] (bq : blockingQueue T) : List T :=
  (List.range bq.size.toNat).map
    (fun i => (bq.items[wrapIdx bq.items.length bq.headIdx.toNat i]?).getD default)

/-- Representation invariant of a queue built by `NewBlockingQueue a C`. -/
structure Inv (C : Int) (bq : blockingQueue T) : Prop where
  cap_nonneg : 0 ≤ C
  len_items : (bq.items.length : Int) = C
  max_eq : bq.maxSize = C
  size_nonneg : 0 ≤ bq.size
  size_le : bq.size ≤ C
  head_nonneg : 0 ≤ bq.headIdx
  head_lt : bq.headIdx < C ∨ bq.headIdx = 0
  tail_eq : bq.tailIdx =
    if bq.headIdx + bq.size < C then bq.headIdx + bq.size else bq.headIdx + bq.size - C

/-- The four calls that only inspect the queue. -/
def isInspection : Op T → Bool
  | Op.peek => true
  | Op.peekLast => true
  | Op.size => true
  | Op.readableSlice => true
  | _ => false

/-- Every slot outside the `size` slots that start at `headIdx` holds the zero
value. -/
def ZeroFree [Inhabited T] (bq : blockingQueue T) : Prop :=
  ∀ i : Nat, bq.size.toNat ≤ i → i < bq.items.length →
    bq.items[wrapIdx bq.items.length bq.headIdx.toNat i]? = some default

/-- The index `(headIdx + size - 1) % maxSize` of the last live slot, computed
without overflow; it is the index `PeekLast` computes whenever
`headIdx + size - 1` does not exceed `math.MaxInt`. -/
def lastIdx (bq : blockingQueue T) : Int :=
  Int.tmod (bq.headIdx + bq.size - 1) bq.maxSize

/-- The queue together with the goroutines that are inside `Take` or `Put`
without holding the mutex.  `sync.Cond.Wait` gives up the mutex and parks the
goroutine until a `Signal` wakes it; the woken goroutine then takes the mutex
again and re-checks its loop condition.  `sync.Cond.Signal` wakes one parked
goroutine, the one that has waited longest, if there is any. -/
structure Sys (T : Type) where
  /-- The queue fields, guarded by the mutex. -/
  bq : blockingQueue T
  /-- Goroutines parked in `isNotEmpty.Wait()`, oldest first. -/
  notEmptyWait : List Nat
  /-- Goroutines parked in `isNotFull.Wait()` with the item they put. -/
  notFullWait : List (Nat × T)
  /-- Goroutines woken from `isNotEmpty.Wait()`, not yet holding the mutex. -/
  wokenTake : List Nat
  /-- Goroutines woken from `isNotFull.Wait()`, not yet holding the mutex. -/
  wokenPut : List (Nat × T)
  /-- Calls that have returned, with what they returned, oldest first. -/
  returned : List (Nat × Ret T)
  deriving DecidableEq, Repr

/-- What the scheduler lets happen next: a goroutine calls `Take` or `Put` and
gets the mutex, or a woken goroutine gets the mutex back. -/
inductive Act (T : Type) where
  | callTake (g : Nat)
  | callPut (g : Nat) (item : T)
  | wakeTake (g : Nat)
  | wakePut (g : Nat)

/-- Goroutine `g` is inside a call. -/
def Sys.busy (s : Sys T) (g : Nat) : Bool :=
  s.notEmptyWait.contains g || s.wokenTake.contains g
    || (s.notFullWait.map Prod.fst).contains g || (s.wokenPut.map Prod.fst).contains g

/-- Goroutine `g` holds the mutex inside `Take` at the head of its wait loop: it
parks when `size == 0`, otherwise it dequeues, and `dequeue` signals
`isNotFull`. -/
def takeSection [Inhabited T] (s : Sys T) (g : Nat) : Option (Sys T) :=
  match Take s.bq with
  | Outcome.blocked => some { s with notEmptyWait := s.notEmptyWait ++ [g] }
  | Outcome.done (x, bq1) =>
    match s.notFullWait with
    | [] => some { s with bq := bq1, returned := s.returned ++ [(g, Ret.val x)] }
    | w :: ws =>
      some { s with
        bq := bq1, notFullWait := ws, wokenPut := s.wokenPut ++ [w]
        returned := s.returned ++ [(g, Ret.val x)] }
  | Outcome.panic => none

/-- Goroutine `g` holds the mutex inside `Put` at the head of its wait loop: it
parks when `size == maxSize`, otherwise it inserts, and it signals
`isNotEmpty` only if `size` was 0 before the insertion (`wasEmpty`). -/
def putSection (s : Sys T) (g : Nat) (item : T) : Option (Sys T) :=
  match Put s.bq item with
  | Outcome.blocked => some { s with notFullWait := s.notFullWait ++ [(g, item)] }
  | Outcome.done bq1 =>
    let wasEmpty : Bool := decide (s.bq.size = 0)
    if wasEmpty then
      match s.notEmptyWait with
      | [] => some { s with bq := bq1, returned := s.returned ++ [(g, Ret.unit)] }
      | w :: ws =>
        some { s with
          bq := bq1, notEmptyWait := ws, wokenTake := s.wokenTake ++ [w]
          returned := s.returned ++ [(g, Ret.unit)] }
    else some { s with bq := bq1, returned := s.returned ++ [(g, Ret.unit)] }
  | Outcome.panic => none

/-- One scheduler step; `none` when the step is not enabled (the goroutine is
already inside a call, or has not been woken) or the call panics. -/
def sysStep [Inhabited T] (s : Sys T) : Act T → Option (Sys T)
  | Act.callTake g => if s.busy g then none else takeSection s g
  | Act.callPut g item => if s.busy g then none else putSection s g item
  | Act.wakeTake g =>
    if s.wokenTake.contains g then
      takeSection { s with wokenTake := s.wokenTake.erase g } g
    else none
  | Act.wakePut g =>
    match s.wokenPut.find? (fun p => p.1 == g) with
    | some (_, item) =>
      putSection { s with wokenPut := s.wokenPut.filter (fun p => p.1 != g) } g item
    | none => none

/-- A schedule: scheduler steps one after the other. -/
def runSched [Inhabited T] : Sys T → List (Act T) → Option (Sys T)
  | s, [] => some s
  | s, a :: as =>
    match sysStep s a with
    | some s1 => runSched s1 as
    | none => none

/-- The system right after `NewBlockingQueue`: no goroutine is inside a call. -/
def Sys.start (bq : blockingQueue T) : Sys T :=
  { bq := bq, notEmptyWait := [], notFullWait := [], wokenTake := [], wokenPut := []
    returned := [] }

/-- Modelled from the spec: the type `Map[K, V]` of package `syncx`, whose
source file is not among the sources.  The spec calls it a keyed store with
atomic load/store and lazy initialization; a store is modelled by the value,
if any, it holds under each key. -/
structure Map (K V : Type) where
  entries : K → Option V

/-- Modelled from the spec: the zero value `Map[K, V]{}`, which holds no key. -/
def Map.empty {K V : Type} : Map K V :=
  { entries := fun _ => none }

/-- Modelled from the spec: `Map.Load`, the value stored under `key` and
whether there is one. -/
def Map.Load {K V : Type} (m : Map K V) (key : K) : Option V :=
  m.entries key

/-- Modelled from the spec: `Map.Store`, which puts `value` under `key` and
keeps every other key. -/
def Map.Store {K V : Type} [DecidableEq K] (m : Map K V) (key : K) (value : V) : Map K V :=
  { entries := fun k => if k = key then some value else m.entries k }

/-- Modelled from the spec: what a call of `LoadOrStoreLazy` did, namely its
two results, the store afterwards, and how often it called `fn`. -/
structure LazyResult (K V : Type) where
  value : V
  loaded : Bool
  store : Map K V
  calls : Nat

/-- Modelled from the spec: `Map.LoadOrStoreLazy`, whose source file is not
among the sources.  A present key is loaded and `fn` is not called; for an
absent key `fn` is called once and its result is stored and returned. -/
def Map.LoadOrStoreLazy {K V : Type} [DecidableEq K] (m : Map K V) (key : K)
    (fn : Unit → V) : LazyResult K V :=
  match m.Load key with
  | some v => { value := v, loaded := true, store := m, calls := 0 }
  | none =>
    let v := fn ()
    { value := v, loaded := false, store := m.Store key v, calls := 1 }

end syncx

/-!
# Generic set (`set/set.go`)

`Set[T comparable]` is the Go map type `map[T]struct{}`.  A value of a map
type is the nil map or a map.  Go compares keys with `==`, and a key is
hashed before it is looked up:

* a key whose dynamic type is not comparable (an `any` holding a slice) cannot
  be hashed, and every map operation with it panics;
* a key that is not equal to itself (a floating-point NaN, or a value holding
  one) is never found by a lookup, so every assignment with it makes a new
  entry and `delete` removes nothing.

Lean's `=` on `T` stands for `==` between keys that are equal to themselves.
-/

namespace set

variable {T : Type}

/-- What the constraint `comparable` leaves open about the keys of a type:
whether a key can be hashed, and whether it is equal to itself. -/
class Comparable (T : Type) where
  hashable : T → Bool
  reflexive : T → Bool

/-- Go's `x == y` on hashable keys. -/
def goEq [DecidableEq T] [Comparable T] (x y : T) : Bool :=
  decide (x = y) && Comparable.reflexive x

/-- Keys of type `int`: all hashable and equal to themselves. -/
instance instComparableInt : Comparable Int :=
  { hashable := fun _ => true, reflexive := fun _ => true }

/-- Some values of type `any`: an `int`, the `float64` NaN, or a slice. -/
inductive AnyKey where
  | int (n : Int)
  | nan
  | slice (xs : List Int)
  deriving DecidableEq

/-- Keys of type `any`: a slice cannot be hashed, NaN is not equal to itself. -/
instance instComparableAnyKey : Comparable AnyKey :=
  { hashable := fun k =>
      match k with
      | AnyKey.slice _ => false
      | _ => true
    reflexive := fun k =>
      match k with
      | AnyKey.nan => false
      | _ => true }

/-- The Go type `Set[T]`: the nil map (the zero value of the type), or a map,
given by the set of its keys that are equal to themselves and the list of its
entries whose key is not. -/
inductive Set (T : Type) where
  | nil
  | map (keys : Finset T) (loose : List T)
  deriving DecidableEq

/-- Constructor `NewWithCap`: `make` returns a new map without entries; `cap`
is a size hint. -/
def NewWithCap (_cap : Int) : Set T :=
  Set.map ∅ []

/-- Method `Add`: `set[element] = struct{}{}`.  An assignment to an entry of
the nil map panics (`none`), and so does hashing a key that cannot be hashed;
a key that is not equal to itself makes a new entry. -/
def Set.Add [DecidableEq T] [Comparable T] (s : Set T) (element : T) : Option (Set T) :=
  match s with
  | Set.nil => none
  | Set.map keys loose =>
    if Comparable.hashable element then
      if Comparable.reflexive element then some (Set.map (insert element keys) loose)
      else some (Set.map keys (element :: loose))
    else none

/-- Method `Remove`: `delete(set, element)`.  The key is hashed also when the
map is nil or empty, which panics (`none`) for a key that cannot be hashed;
otherwise a no-op on the nil map, for a key that is not there, and for a key
that is not equal to itself. -/
def Set.Remove [DecidableEq T] [Comparable T] (s : Set T) (element : T) : Option (Set T) :=
  if Comparable.hashable element then
    match s with
    | Set.nil => some Set.nil
    | Set.map keys loose =>
      if Comparable.reflexive element then some (Set.map (keys.erase element) loose)
      else some (Set.map keys loose)
  else none

/-- Method `Contains`: `_, exists := set[element]`.  The key is hashed also
when the map is nil or empty (`none` is the panic); no key is in the nil map,
and a key that is not equal to itself is never found. -/
def Set.Contains [DecidableEq T] [Comparable T] (s : Set T) (element : T) : Option Bool :=
  if Comparable.hashable element then
    match s with
    | Set.nil => some false
    | Set.map keys _ =>
      if Comparable.reflexive element then some (decide (element ∈ keys)) else some false
  else none

/-- Method `Len`: `len(set)`, the number of entries, which is 0 for the nil
map. -/
def Set.Len (s : Set T) : Int :=
  match s with
  | Set.nil => 0
  | Set.map keys loose => (keys.card : Int) + (loose.length : Int)

end set

namespace syncx

variable {T : Type}

/-! ## Circular indexing and the representation invariant -/

theorem wrapIdx_eq_mod {C h i : Nat} (hh : h < C) (hi : i ≤ C) :
    wrapIdx C h i = (h + i) % C := by
  unfold wrapIdx
  split
  · rw [Nat.mod_eq_of_lt (by assumption)]
  · rw [Nat.mod_eq_sub_mod (by omega), Nat.mod_eq_of_lt (by omega)]

theorem wrapIdx_lt {C h i : Nat} (hh : h < C) (hi : i ≤ C) : wrapIdx C h i < C := by
  unfold wrapIdx
  split <;> omega

theorem wrapIdx_inj {C h i j : Nat} (hi : i < C) (hj : j < C)
    (e : wrapIdx C h i = wrapIdx C h j) : i = j := by
  unfold wrapIdx at e
  split at e <;> split at e <;> omega

theorem contents_length [Inhabited T] (bq : blockingQueue T) :
    (contents bq).length = bq.size.toNat := by
  simp [contents]

theorem contents_getElem [Inhabited T] (bq : blockingQueue T) (i : Nat)
    (hi : i < (contents bq).length) :
    (contents bq)[i] =
      (bq.items[wrapIdx bq.items.length bq.headIdx.toNat i]?).getD default := by
  simp [contents]

theorem Inv_init {a : Arch} [Inhabited T] {C : Int} {bq : blockingQueue T}
    (h : NewBlockingQueue a C = Outcome.done bq) : Inv C bq := by
  unfold NewBlockingQueue at h
  split at h
  · cases h
  · injection h with h
    subst h
    constructor <;> simp_all
    omega

/-- Range of the integers the methods compute from a state satisfying the
invariant: `size - 1`, `size + 1`, `tailIdx + 1`, `headIdx + 1` and
`headIdx + size - 1`. -/
theorem Inv.int_range {C : Int} {bq : blockingQueue T} (inv : Inv C bq) :
    -1 ≤ bq.size - 1 ∧ bq.size + 1 ≤ C + 1
    ∧ 0 ≤ bq.tailIdx ∧ bq.tailIdx + 1 ≤ C + 1
    ∧ 0 ≤ bq.headIdx ∧ bq.headIdx + 1 ≤ C + 1
    ∧ -1 ≤ bq.headIdx + bq.size - 1 ∧ bq.headIdx + bq.size - 1 ≤ 2 * C := by
  obtain ⟨h1, h2, h3, h4, h5, h6, h7, h8⟩ := inv
  omega

/-! ## `Put` -/

theorem Inv.tail_bounds {C : Int} {bq : blockingQueue T} (inv : Inv C bq)
    (hlt : bq.size < C) : 0 ≤ bq.tailIdx ∧ bq.tailIdx < C := by
  obtain ⟨h1, h2, h3, h4, h5, h6, h7, h8⟩ := inv
  split at h8 <;> omega

theorem Inv.tail_toNat {C : Int} {bq : blockingQueue T} (inv : Inv C bq)
    (hlt : bq.size < C) :
    bq.tailIdx.toNat = wrapIdx bq.items.length bq.headIdx.toNat bq.size.toNat := by
  obtain ⟨h1, h2, h3, h4, h5, h6, h7, h8⟩ := inv
  unfold wrapIdx
  split at h8 <;> split <;> omega

/-- The state `Put` leaves behind when it does not wait. -/
theorem Put_eq {C : Int} {bq : blockingQueue T} (item : T) (inv : Inv C bq)
    (hlt : bq.size < C) :
    Put bq item = Outcome.done
      { bq with
        items := bq.items.set bq.tailIdx.toNat item
        size := bq.size + 1
        tailIdx := if bq.tailIdx + 1 ≥ C then 0 else bq.tailIdx + 1 } := by
  have hb := inv.tail_bounds hlt
  obtain ⟨h1, h2, h3, h4, h5, h6, h7, h8⟩ := inv
  have hne : bq.size ≠ bq.maxSize := by omega
  have hw : writeAt bq.items bq.tailIdx item = some (bq.items.set bq.tailIdx.toNat item) := by
    unfold writeAt
    rw [if_neg (by omega), if_pos (by omega)]
  simp only [Put, if_neg hne, hw]
  rw [h3]

theorem Put_inv {C : Int} {bq bq1 : blockingQueue T} {item : T} (inv : Inv C bq)
    (h : Put bq item = Outcome.done bq1) : Inv C bq1 := by
  have hlt : bq.size < C := by
    have := inv.size_le
    have := inv.max_eq
    by_contra hc
    have : bq.size = bq.maxSize := by omega
    simp [Put, this] at h
  rw [Put_eq item inv hlt] at h
  injection h with h
  subst h
  have hb := inv.tail_bounds hlt
  obtain ⟨h1, h2, h3, h4, h5, h6, h7, h8⟩ := inv
  constructor <;> (try simp only [List.length_set]) <;> (try omega)

theorem Put_contents [Inhabited T] {C : Int} {bq bq1 : blockingQueue T} {item : T}
    (inv : Inv C bq) (h : Put bq item = Outcome.done bq1) :
    contents bq1 = contents bq ++ [item] := by
  have hlt : bq.size < C := by
    have := inv.size_le
    have := inv.max_eq
    by_contra hc
    have : bq.size = bq.maxSize := by omega
    simp [Put, this] at h
  rw [Put_eq item inv hlt] at h
  injection h with h
  subst h
  have hb := inv.tail_bounds hlt
  have ht := inv.tail_toNat hlt
  obtain ⟨h1, h2, h3, h4, h5, h6, h7, h8⟩ := inv
  apply List.ext_getElem
  · simp only [contents_length, List.length_append, List.length_singleton]
    omega
  · intro i hi1 hi2
    rw [contents_getElem]
    simp only [contents_length] at hi1
    simp only [List.length_set]
    by_cases hin : i < bq.size.toNat
    · rw [List.getElem_append_left (by simpa [contents_length] using hin), contents_getElem]
      have hne : bq.tailIdx.toNat ≠ wrapIdx bq.items.length bq.headIdx.toNat i := by
        rw [ht]
        intro e
        have := wrapIdx_inj (by omega) (by omega) e
        omega
      rw [List.getElem?_set_ne hne]
    · have hie : i = bq.size.toNat := by omega
      subst hie
      rw [List.getElem_append_right (by simp [contents_length])]
      simp only [contents_length, Nat.sub_self, List.getElem_singleton]
      rw [← ht, List.getElem?_set_self (by omega)]
      rfl

/-! ## `dequeue` -/

theorem Inv.head_bounds {C : Int} {bq : blockingQueue T} (inv : Inv C bq)
    (hpos : bq.size ≠ 0) : bq.headIdx.toNat < bq.items.length := by
  obtain ⟨h1, h2, h3, h4, h5, h6, h7, h8⟩ := inv
  omega

/-- The front slot is readable in a non-empty queue, and it is the first live
element. -/
theorem readAt_head [Inhabited T] {C : Int} {bq : blockingQueue T} (inv : Inv C bq)
    (hpos : bq.size ≠ 0) :
    ∃ x, readAt bq.items bq.headIdx = some x ∧ (contents bq).head? = some x := by
  have hb := inv.head_bounds hpos
  obtain ⟨h1, h2, h3, h4, h5, h6, h7, h8⟩ := inv
  refine ⟨bq.items[bq.headIdx.toNat], ?_, ?_⟩
  · unfold readAt
    rw [if_neg (by omega), List.getElem?_eq_getElem hb]
  · have hl : 0 < (contents bq).length := by
      rw [contents_length]
      omega
    rw [List.head?_eq_getElem?, List.getElem?_eq_getElem hl, contents_getElem]
    have hw : wrapIdx bq.items.length bq.headIdx.toNat 0 = bq.headIdx.toNat := by
      unfold wrapIdx
      rw [if_pos (by omega)]
      rfl
    rw [hw, List.getElem?_eq_getElem hb]
    rfl

/-- The value and the state `dequeue` produces on a non-empty queue. -/
theorem dequeue_eq [Inhabited T] {C : Int} {bq : blockingQueue T} {x : T}
    (inv : Inv C bq) (hpos : bq.size ≠ 0) (hx : readAt bq.items bq.headIdx = some x) :
    dequeue bq = Outcome.done
      (x, { bq with
            items := bq.items.set bq.headIdx.toNat default
            headIdx := if bq.headIdx + 1 = C then 0 else bq.headIdx + 1
            size := bq.size - 1 }) := by
  have hb := inv.head_bounds hpos
  obtain ⟨h1, h2, h3, h4, h5, h6, h7, h8⟩ := inv
  have hw : writeAt bq.items bq.headIdx default
      = some (bq.items.set bq.headIdx.toNat default) := by
    unfold writeAt
    rw [if_neg (by omega), if_pos hb]
  simp only [dequeue, hx, hw]
  rw [h2]

theorem dequeue_inv [Inhabited T] {C : Int} {bq bq1 : blockingQueue T} {x : T}
    (inv : Inv C bq) (hpos : bq.size ≠ 0) (h : dequeue bq = Outcome.done (x, bq1)) :
    Inv C bq1 := by
  obtain ⟨y, hy, -⟩ := readAt_head inv hpos
  rw [dequeue_eq inv hpos hy] at h
  injection h with h
  injection h with h1 h2
  subst h2
  have hb := inv.head_bounds hpos
  obtain ⟨h1, h2, h3, h4, h5, h6, h7, h8⟩ := inv
  constructor <;> (try simp only [List.length_set]) <;> (try omega)

theorem dequeue_contents [Inhabited T] {C : Int} {bq bq1 : blockingQueue T} {x : T}
    (inv : Inv C bq) (hpos : bq.size ≠ 0) (h : dequeue bq = Outcome.done (x, bq1)) :
    contents bq = x :: contents bq1 := by
  obtain ⟨y, hy, hfront⟩ := readAt_head inv hpos
  rw [dequeue_eq inv hpos hy] at h
  injection h with h
  injection h with h1 h2
  subst h1 h2
  have hb := inv.head_bounds hpos
  obtain ⟨h1, h2, h3, h4, h5, h6, h7, h8⟩ := inv
  apply List.ext_getElem
  · simp only [contents_length, List.length_cons]
    omega
  · intro i hi1 hi2
    rcases i with _ | i
    · rw [List.head?_eq_getElem?, List.getElem?_eq_getElem hi1] at hfront
      injection hfront
    · rw [List.getElem_cons_succ, contents_getElem, contents_getElem]
      simp only [contents_length] at hi1
      simp only [List.length_set]
      have hidx : wrapIdx bq.items.length
          (if bq.headIdx + 1 = C then 0 else bq.headIdx + 1).toNat i
          = wrapIdx bq.items.length bq.headIdx.toNat (i + 1) := by
        unfold wrapIdx
        split <;> split <;> split <;> omega
      have hne : bq.headIdx.toNat ≠ wrapIdx bq.items.length bq.headIdx.toNat (i + 1) := by
        unfold wrapIdx
        split <;> omega
      rw [hidx, List.getElem?_set_ne hne]

/-! ## `ReadableSlice` -/

/-- Loop invariant of `ReadableSlice`: with `m` iterations left and `k` done,
the loop finishes, keeps the first `k` cells of `res` and fills cell `j ≥ k`
with logical slot `j`. -/
theorem readLoop_spec [Inhabited T] (items : List T) (h n : Nat) (hh : h < items.length ∨ n = 0)
    (hn : n ≤ items.length) :
    ∀ (m k : Nat) (res : List T), k + m = n → res.length = n →
      ∃ res1, readLoop items (items.length : Int) m (k : Int)
          (wrapIdx items.length h k : Nat) res = some res1 ∧
        res1.length = n ∧
        (∀ j, j < k → res1[j]? = res[j]?) ∧
        (∀ j, k ≤ j → j < n →
          res1[j]? = some ((items[wrapIdx items.length h j]?).getD default)) := by
  intro m
  induction m with
  | zero =>
    intro k res hk hres
    exact ⟨res, rfl, hres, fun _ _ => rfl, fun j h1 h2 => by omega⟩
  | succ m ih =>
    intro k res hk hres
    have hC : h < items.length := by omega
    have hlt : wrapIdx items.length h k < items.length := wrapIdx_lt hC (by omega)
    have hr : readAt items (wrapIdx items.length h k : Nat)
        = some items[wrapIdx items.length h k] := by
      unfold readAt
      rw [if_neg (by omega), Int.toNat_ofNat, List.getElem?_eq_getElem hlt]
    have hw : writeAt res (k : Int) items[wrapIdx items.length h k]
        = some (res.set k items[wrapIdx items.length h k]) := by
      unfold writeAt
      rw [if_neg (by omega), Int.toNat_ofNat, if_pos (by omega)]
    have hstep : (if ((wrapIdx items.length h k : Nat) : Int) + 1 = (items.length : Int)
        then (0 : Int) else ((wrapIdx items.length h k : Nat) : Int) + 1)
        = ((wrapIdx items.length h (k + 1) : Nat) : Int) := by
      unfold wrapIdx
      split <;> split <;> split <;> omega
    obtain ⟨res1, e1, e2, e3, e4⟩ :=
      ih (k + 1) (res.set k items[wrapIdx items.length h k]) (by omega)
        (by rw [List.length_set]; exact hres)
    refine ⟨res1, ?_, e2, ?_, ?_⟩
    · simp only [readLoop, hr, hw, hstep]
      exact_mod_cast e1
    · intro j hj
      rw [e3 j (by omega), List.getElem?_set_ne (by omega)]
    · intro j hj1 hj2
      by_cases hjk : j = k
      · subst hjk
        rw [e3 j (by omega), List.getElem?_set_self (by omega),
          List.getElem?_eq_getElem hlt]
        rfl
      · exact e4 j (by omega) hj2

/-- In a state satisfying the invariant `ReadableSlice` returns the live
elements front to back and leaves the state as it was. -/
theorem ReadableSlice_eq [Inhabited T] {C : Int} {bq : blockingQueue T} (inv : Inv C bq) :
    ReadableSlice bq = Outcome.done (contents bq, bq) := by
  obtain ⟨h1, h2, h3, h4, h5, h6, h7, h8⟩ := inv
  obtain ⟨res, e1, e2, -, e4⟩ :=
    readLoop_spec bq.items bq.headIdx.toNat bq.size.toNat (by omega) (by omega)
      bq.size.toNat 0 (List.replicate bq.size.toNat default) (by omega) (by simp)
  have hw : ((wrapIdx bq.items.length bq.headIdx.toNat 0 : Nat) : Int) = bq.headIdx := by
    unfold wrapIdx
    split <;> omega
  have hres : res = contents bq := by
    apply List.ext_getElem
    · rw [e2, contents_length]
    · intro i hi1 hi2
      have := e4 i (by omega) (by omega)
      rw [List.getElem?_eq_getElem hi1] at this
      injection this with this
      rw [this, contents_getElem]
  rw [hw, h2, ← h3] at e1
  unfold ReadableSlice
  rw [if_neg (by omega)]
  simp only [Nat.cast_zero] at e1
  rw [e1, hres]

/-! ## `Peek`, `PeekLast` and reachable states -/

/-- The index `PeekLast` computes is the slot of the last live element. -/
theorem peekLast_idx {C : Int} {bq : blockingQueue T} (inv : Inv C bq)
    (hpos : bq.size ≠ 0) :
    Int.tmod (bq.headIdx + bq.size - 1) bq.maxSize
      = ((wrapIdx bq.items.length bq.headIdx.toNat (bq.size.toNat - 1) : Nat) : Int) := by
  obtain ⟨h1, h2, h3, h4, h5, h6, h7, h8⟩ := inv
  have e : bq.headIdx + bq.size - 1
      = ((bq.headIdx.toNat + (bq.size.toNat - 1) : Nat) : Int) := by omega
  rw [e, h3, ← h2, ← Int.ofNat_tmod, wrapIdx_eq_mod (by omega) (by omega)]

theorem Arch.half_pos (a : Arch) : 0 < a.half := by
  unfold Arch.half
  positivity

/-- A value in the range of `int` does not wrap. -/
theorem wrapInt_eq {a : Arch} {x : Int} (h1 : -a.half ≤ x) (h2 : x ≤ a.maxInt) :
    wrapInt a x = x := by
  unfold Arch.maxInt at h2
  unfold wrapInt
  rw [Int.emod_eq_of_lt (by omega) (by omega)]
  omega

/-- Wrapping the sum and then the difference is wrapping `x - 1` once. -/
theorem wrapInt_sub_one (a : Arch) (x : Int) :
    wrapInt a (wrapInt a x - 1) = wrapInt a (x - 1) := by
  unfold wrapInt
  have e1 : (x + a.half) % (2 * a.half) - a.half - 1 + a.half
      = (x + a.half) % (2 * a.half) + (-1) := by ring
  have e2 : x - 1 + a.half = x + a.half + (-1) := by ring
  rw [e1, e2, Int.emod_add_emod]

/-- Without overflow `PeekLast` computes the index of the last live slot. -/
theorem peekLastIdx_eq {a : Arch} {C : Int} {bq : blockingQueue T} (inv : Inv C bq)
    (hov : bq.headIdx + bq.size - 1 ≤ a.maxInt) :
    peekLastIdx a bq = lastIdx bq := by
  have hh := a.half_pos
  obtain ⟨h1, h2, h3, h4, h5, h6, h7, h8⟩ := inv
  unfold peekLastIdx lastIdx
  rw [wrapInt_sub_one, wrapInt_eq (by omega) hov]

/-- In a queue of capacity `C` with `2 * C - 2 ≤ math.MaxInt` the sum
`headIdx + size - 1` never overflows. -/
theorem Inv.no_overflow {a : Arch} {C : Int} {bq : blockingQueue T} (inv : Inv C bq)
    (hcap : 2 * C - 2 ≤ a.maxInt) (hpos : bq.size ≠ 0) :
    bq.headIdx + bq.size - 1 ≤ a.maxInt := by
  obtain ⟨h1, h2, h3, h4, h5, h6, h7, h8⟩ := inv
  omega

/-- Whatever `PeekLast` returns, it hands back the state it was called on. -/
theorem PeekLast_state {a : Arch} [Inhabited T] {bq bq1 : blockingQueue T} {x : T}
    (h : PeekLast a bq = Outcome.done (x, bq1)) : bq1 = bq := by
  unfold PeekLast at h
  split at h
  · injection h with h
    injection h with _ h
    exact h.symm
  · split at h
    · cases h
    · simp only at h
      split at h
      · cases h
      · injection h with h
        injection h with _ h
        exact h.symm

theorem PeekLast_eq {a : Arch} [Inhabited T] {C : Int} {bq : blockingQueue T} (inv : Inv C bq)
    (hpos : bq.size ≠ 0) (hov : bq.headIdx + bq.size - 1 ≤ a.maxInt) :
    ∃ x, PeekLast a bq = Outcome.done (x, bq) ∧ (contents bq).getLast? = some x := by
  have hidx := peekLast_idx inv hpos
  have hpl : peekLastIdx a bq
      = Int.tmod (bq.headIdx + bq.size - 1) bq.maxSize := peekLastIdx_eq inv hov
  obtain ⟨h1, h2, h3, h4, h5, h6, h7, h8⟩ := inv
  have hlt : wrapIdx bq.items.length bq.headIdx.toNat (bq.size.toNat - 1)
      < bq.items.length := wrapIdx_lt (by omega) (by omega)
  refine ⟨bq.items[wrapIdx bq.items.length bq.headIdx.toNat (bq.size.toNat - 1)], ?_, ?_⟩
  · have hr : readAt bq.items
        ((wrapIdx bq.items.length bq.headIdx.toNat (bq.size.toNat - 1) : Nat) : Int)
        = some bq.items[wrapIdx bq.items.length bq.headIdx.toNat (bq.size.toNat - 1)] := by
      unfold readAt
      rw [if_neg (by omega), Int.toNat_ofNat, List.getElem?_eq_getElem hlt]
    unfold PeekLast
    rw [if_neg hpos, if_neg (by omega)]
    simp only [hpl, hidx, hr]
  · have hl : (contents bq).length - 1 < (contents bq).length := by
      rw [contents_length]
      omega
    rw [List.getLast?_eq_getElem?, List.getElem?_eq_getElem hl, contents_getElem,
      contents_length, List.getElem?_eq_getElem hlt]
    rfl

theorem Peek_eq [Inhabited T] {C : Int} {bq : blockingQueue T} (inv : Inv C bq)
    (hpos : bq.size ≠ 0) :
    ∃ x, Peek bq = Outcome.done (x, bq) ∧ (contents bq).head? = some x := by
  obtain ⟨x, hx, hf⟩ := readAt_head inv hpos
  refine ⟨x, ?_, hf⟩
  simp only [Peek, if_neg hpos, hx]

theorem ret_done {α β : Type} {f : α → Ret T} {o : Outcome (α × β)} {r : Ret T} {b : β}
    (h : o.ret f = Outcome.done (r, b)) : ∃ a, o = Outcome.done (a, b) ∧ r = f a := by
  cases o with
  | done p =>
    obtain ⟨a, b1⟩ := p
    simp only [Outcome.ret] at h
    injection h with h
    injection h with h1 h2
    exact ⟨a, by rw [h2], h1.symm⟩
  | blocked => cases h
  | panic => cases h

/-- The three ways a call can return in a state satisfying the invariant: a
`Put` that did not wait, a removal through `dequeue` on a non-empty queue, or
a call that left the state as it was. -/
theorem exec_cases {a : Arch} [Inhabited T] {C : Int} {bq bq1 : blockingQueue T} {op : Op T} {r : Ret T}
    (inv : Inv C bq) (h : exec a bq op = Outcome.done (r, bq1)) :
    (∃ x, op = Op.put x ∧ r = Ret.unit ∧ Put bq x = Outcome.done bq1)
    ∨ (∃ x, putBy op = [] ∧ bq.size ≠ 0 ∧ r = Ret.val x
        ∧ dequeue bq = Outcome.done (x, bq1))
    ∨ (putBy op = [] ∧ bq1 = bq ∧ removedBy bq bq1 r = []) := by
  have hsame : ∀ r : Ret T, removedBy bq bq r = [] := by
    intro r
    cases r <;> simp [removedBy]
  cases op with
  | put item =>
    left
    simp only [exec] at h
    split at h
    · rename_i bq2 hp
      injection h with h
      injection h with h1 h2
      subst h2
      exact ⟨item, rfl, h1.symm, hp⟩
    · cases h
    · cases h
  | take =>
    right; left
    obtain ⟨x, hx, hr⟩ := ret_done h
    simp only [Take] at hx
    split at hx
    · cases hx
    · rename_i hpos
      exact ⟨x, rfl, hpos, hr, hx⟩
  | poll =>
    obtain ⟨x, hx, hr⟩ := ret_done h
    simp only [Poll] at hx
    split at hx
    · right; right
      injection hx with hx
      injection hx with _ h2
      subst h2
      exact ⟨rfl, rfl, hsame r⟩
    · rename_i hpos
      right; left
      exact ⟨x, rfl, hpos, hr, hx⟩
  | compareAndPoll compare =>
    obtain ⟨x, hx, hr⟩ := ret_done h
    simp only [CompareAndPoll] at hx
    split at hx
    · right; right
      injection hx with hx
      injection hx with _ h2
      subst h2
      exact ⟨rfl, rfl, hsame r⟩
    · rename_i hpos
      obtain ⟨y, hy, -⟩ := readAt_head inv hpos
      simp only [hy] at hx
      split at hx
      · right; left
        exact ⟨x, rfl, hpos, hr, hx⟩
      · right; right
        injection hx with hx
        injection hx with _ h2
        subst h2
        exact ⟨rfl, rfl, hsame r⟩
  | peek =>
    right; right
    obtain ⟨x, hx, hr⟩ := ret_done h
    simp only [Peek] at hx
    split at hx
    · injection hx with hx
      injection hx with _ h2
      subst h2
      exact ⟨rfl, rfl, hsame r⟩
    · rename_i hpos
      obtain ⟨y, hy, -⟩ := readAt_head inv hpos
      simp only [hy] at hx
      injection hx with hx
      injection hx with _ h2
      subst h2
      exact ⟨rfl, rfl, hsame r⟩
  | peekLast =>
    right; right
    obtain ⟨x, hx, hr⟩ := ret_done h
    have h2 := PeekLast_state hx
    subst h2
    exact ⟨rfl, rfl, hsame r⟩
  | size =>
    right; right
    have h1 : (Size bq).ret Ret.int = Outcome.done (r, bq1) := h
    obtain ⟨x, hx, hr⟩ := ret_done h1
    simp only [Size] at hx
    injection hx with hx
    injection hx with _ h2
    subst h2
    exact ⟨rfl, rfl, hsame r⟩
  | readableSlice =>
    right; right
    obtain ⟨x, hx, hr⟩ := ret_done h
    rw [ReadableSlice_eq inv] at hx
    injection hx with hx
    injection hx with _ h2
    subst h2
    exact ⟨rfl, rfl, hsame r⟩

/-- Every call that returns keeps the representation invariant. -/
theorem exec_inv {a : Arch} [Inhabited T] {C : Int} {bq bq1 : blockingQueue T} {op : Op T} {r : Ret T}
    (inv : Inv C bq) (h : exec a bq op = Outcome.done (r, bq1)) : Inv C bq1 := by
  rcases exec_cases inv h with ⟨x, -, -, hp⟩ | ⟨x, -, hpos, -, hd⟩ | ⟨-, e, -⟩
  · exact Put_inv inv hp
  · exact dequeue_inv inv hpos hd
  · rw [e]
    exact inv

/-- Every reachable state satisfies the representation invariant. -/
theorem Reachable.inv {a : Arch} [Inhabited T] {C : Int} {bq : blockingQueue T}
    (h : Reachable a C bq) : Inv C bq := by
  induction h with
  | init h0 => exact Inv_init h0
  | step op r _ hstep ih => exact exec_inv ih hstep

/-- The capacity of a queue the constructor returned is a length `make`
accepts, so it does not exceed `math.MaxInt`. -/
theorem Reachable.cap_le {a : Arch} [Inhabited T] {C : Int} {bq : blockingQueue T}
    (h : Reachable a C bq) : 0 ≤ C ∧ C ≤ a.maxLen ∧ C ≤ a.maxInt := by
  induction h with
  | init h0 =>
    have hl := a.maxLen_le
    unfold NewBlockingQueue at h0
    split at h0
    · cases h0
    · unfold Arch.maxInt Arch.half
      omega
  | step op r _ _ ih => exact ih

/-! ## Runs of calls -/

theorem Put_spec [Inhabited T] {C : Int} {bq : blockingQueue T} (item : T) (inv : Inv C bq)
    (hlt : bq.size < C) :
    ∃ bq1, Put bq item = Outcome.done bq1 ∧ Inv C bq1
      ∧ contents bq1 = contents bq ++ [item] ∧ bq1.size = bq.size + 1 := by
  have h := Put_eq item inv hlt
  refine ⟨_, h, Put_inv inv h, Put_contents inv h, rfl⟩

theorem dequeue_spec [Inhabited T] {C : Int} {bq : blockingQueue T} (inv : Inv C bq)
    (hpos : bq.size ≠ 0) :
    ∃ x bq1, dequeue bq = Outcome.done (x, bq1) ∧ Inv C bq1
      ∧ contents bq = x :: contents bq1 ∧ bq1.size = bq.size - 1 := by
  obtain ⟨x, hx, -⟩ := readAt_head inv hpos
  have h := dequeue_eq inv hpos hx
  refine ⟨x, _, h, dequeue_inv inv hpos h, dequeue_contents inv hpos h, rfl⟩

theorem contents_eq_nil [Inhabited T] {bq : blockingQueue T} (h : bq.size = 0) :
    contents bq = [] := by
  simp [contents, h]

theorem run_append {a : Arch} [Inhabited T] (ops1 ops2 : List (Op T)) :
    ∀ (bq bq1 bq2 : blockingQueue T) (rs1 rs2 : List (Ret T)),
      run a bq ops1 = Outcome.done (rs1, bq1) → run a bq1 ops2 = Outcome.done (rs2, bq2) →
      run a bq (ops1 ++ ops2) = Outcome.done (rs1 ++ rs2, bq2) := by
  induction ops1 with
  | nil =>
    intro bq bq1 bq2 rs1 rs2 h1 h2
    simp only [run] at h1
    injection h1 with h1
    injection h1 with e1 e2
    subst e1 e2
    simpa using h2
  | cons op ops ih =>
    intro bq bq1 bq2 rs1 rs2 h1 h2
    simp only [run] at h1
    simp only [List.cons_append, run]
    cases he : exec a bq op with
    | done p =>
      obtain ⟨r, bq3⟩ := p
      rw [he] at h1
      simp only at h1 ⊢
      cases hr : run a bq3 ops with
      | done q =>
        obtain ⟨rs, bq4⟩ := q
        rw [hr] at h1
        simp only at h1
        injection h1 with h1
        injection h1 with e1 e2
        subst e1 e2
        have e := ih bq3 bq4 bq2 rs rs2 hr h2
        simp only [List.append_eq, e, List.cons_append]
      | blocked => rw [hr] at h1; cases h1
      | panic => rw [hr] at h1; cases h1
    | blocked => rw [he] at h1; cases h1
    | panic => rw [he] at h1; cases h1

/-- A run of `Put`s that fit into the free slots returns and appends the items
in order. -/
theorem run_puts {a : Arch} [Inhabited T] {C : Int} (ps : List T) :
    ∀ (bq : blockingQueue T), Inv C bq → bq.size + ps.length ≤ C →
      ∃ bq1, run a bq (ps.map Op.put) = Outcome.done (List.replicate ps.length Ret.unit, bq1)
        ∧ Inv C bq1 ∧ contents bq1 = contents bq ++ ps := by
  induction ps with
  | nil =>
    intro bq inv _
    exact ⟨bq, rfl, inv, by simp⟩
  | cons p ps ih =>
    intro bq inv hle
    simp only [List.length_cons, Nat.cast_add, Nat.cast_one] at hle
    obtain ⟨bq1, h1, inv1, hc1, hs1⟩ := Put_spec p inv (by omega)
    obtain ⟨bq2, h2, inv2, hc2⟩ := ih bq1 inv1 (by omega)
    refine ⟨bq2, ?_, inv2, ?_⟩
    · simp only [List.map_cons, run, exec, h1, h2, List.length_cons, List.replicate_succ]
    · rw [hc2, hc1]
      simp

/-- A run of as many `Take`s as the queue holds elements returns them front to
back. -/
theorem run_takes {a : Arch} [Inhabited T] {C : Int} (xs : List T) :
    ∀ (bq : blockingQueue T), Inv C bq → contents bq = xs →
      ∃ bq1, run a bq (List.replicate xs.length Op.take)
          = Outcome.done (xs.map Ret.val, bq1) ∧ Inv C bq1 ∧ contents bq1 = [] := by
  induction xs with
  | nil =>
    intro bq inv hc
    exact ⟨bq, rfl, inv, hc⟩
  | cons x xs ih =>
    intro bq inv hc
    have hpos : bq.size ≠ 0 := by
      intro h0
      rw [contents_eq_nil h0] at hc
      cases hc
    obtain ⟨y, bq1, h1, inv1, hc1, -⟩ := dequeue_spec inv hpos
    rw [hc1] at hc
    injection hc with e1 e2
    subst e1
    obtain ⟨bq2, h2, inv2, hc2⟩ := ih bq1 inv1 e2
    refine ⟨bq2, ?_, inv2, hc2⟩
    simp only [List.length_cons, List.replicate_succ, run, exec, Take, if_neg hpos, h1,
      Outcome.ret, h2, List.map_cons]

/-- One call that returns: what was in the queue followed by what the call put
is what the call removed followed by what is in the queue afterwards. -/
theorem exec_trace {a : Arch} [Inhabited T] {C : Int} {bq bq1 : blockingQueue T} {op : Op T} {r : Ret T}
    (inv : Inv C bq) (h : exec a bq op = Outcome.done (r, bq1)) :
    contents bq ++ putBy op = removedBy bq bq1 r ++ contents bq1 := by
  rcases exec_cases inv h with ⟨x, e1, e2, hp⟩ | ⟨x, e1, hpos, e2, hd⟩ | ⟨e1, e2, e3⟩
  · subst e1 e2
    rw [Put_contents inv hp]
    rfl
  · obtain ⟨y, bq2, h2, -, hc, hs⟩ := dequeue_spec inv hpos
    rw [hd] at h2
    injection h2 with h2
    injection h2 with e3 e4
    subst e2 e3 e4
    have hlt : bq1.size < bq.size := by omega
    rw [e1, hc]
    simp [removedBy, hlt]
  · rw [e1, e3, e2]
    simp

theorem run_trace {a : Arch} [Inhabited T] {C : Int} (ops : List (Op T)) :
    ∀ (bq bq1 : blockingQueue T) (rs : List (Ret T)), Inv C bq →
      run a bq ops = Outcome.done (rs, bq1) →
      Inv C bq1 ∧ contents bq ++ putsOf ops = removedIn a bq ops ++ contents bq1 := by
  induction ops with
  | nil =>
    intro bq bq1 rs inv h
    simp only [run] at h
    injection h with h
    injection h with _ e
    subst e
    exact ⟨inv, by simp [putsOf, removedIn]⟩
  | cons op ops ih =>
    intro bq bq1 rs inv h
    simp only [run] at h
    cases he : exec a bq op with
    | done p =>
      obtain ⟨r, bq2⟩ := p
      rw [he] at h
      simp only at h
      cases hr : run a bq2 ops with
      | done q =>
        obtain ⟨rs1, bq3⟩ := q
        rw [hr] at h
        simp only at h
        injection h with h
        injection h with _ e
        subst e
        obtain ⟨inv3, htr⟩ := ih bq2 bq3 rs1 (exec_inv inv he) hr
        refine ⟨inv3, ?_⟩
        have h1 := exec_trace inv he
        simp only [putsOf, List.flatMap_cons, removedIn, he] at htr ⊢
        rw [← List.append_assoc, h1, List.append_assoc, htr, List.append_assoc]
      | blocked => rw [hr] at h; cases h
      | panic => rw [hr] at h; cases h
    | blocked => rw [he] at h; cases h
    | panic => rw [he] at h; cases h

/-! ## The claims -/

/-- C1 (FIFO order).  Let `bq0` be the queue `NewBlockingQueue a C` returns.
(a) For items `ps` with `ps.length ≤ C`, the `Put`s of `ps` followed by as many
`Take`s all return, and the `Take`s return `ps` in order.  (b) For every run
of calls that all return (each `Put` on a non-full queue, each `Take` on a
non-empty one), the items removed, in order, are a prefix of the items put, in
order; what is left over is what `ReadableSlice` returns afterwards. -/
theorem C1_fifo_order (a : Arch) [Inhabited T] (C : Int) (bq0 : blockingQueue T)
    (h0 : NewBlockingQueue a C = Outcome.done bq0)
    (ps : List T) (hps : (ps.length : Int) ≤ C)
    (ops : List (Op T)) (rs : List (Ret T)) (bq1 : blockingQueue T)
    (hrun : run a bq0 ops = Outcome.done (rs, bq1)) :
    (∃ bq2, run a bq0 (ps.map Op.put ++ List.replicate ps.length Op.take)
        = Outcome.done (List.replicate ps.length Ret.unit ++ ps.map Ret.val, bq2))
    ∧ removedIn a bq0 ops <+: putsOf ops
    ∧ ∃ xs, ReadableSlice bq1 = Outcome.done (xs, bq1)
        ∧ removedIn a bq0 ops ++ xs = putsOf ops := by
  have inv0 : Inv C bq0 := Inv_init h0
  have hs0 : bq0.size = 0 := by
    unfold NewBlockingQueue at h0
    split at h0
    · cases h0
    · injection h0 with h0
      subst h0
      rfl
  have hc0 : contents bq0 = [] := contents_eq_nil hs0
  obtain ⟨inv1, htr⟩ := run_trace ops bq0 bq1 rs inv0 hrun
  rw [hc0, List.nil_append] at htr
  refine ⟨?_, ⟨contents bq1, htr.symm⟩, contents bq1, ReadableSlice_eq inv1, htr.symm⟩
  obtain ⟨bq2, h2, inv2, hc2⟩ := run_puts ps bq0 inv0 (by omega)
  rw [hc0, List.nil_append] at hc2
  obtain ⟨bq3, h3, -, -⟩ := run_takes ps bq2 inv2 hc2
  exact ⟨bq3, run_append _ _ _ _ _ _ _ h2 h3⟩

/-- Instance of C1 on a queue of capacity 2: two `Put`s and two `Take`s, and a
run that removes `1, 2` of the items `1, 2, 3` put. -/
theorem C1_fifo_order_witness :
    (NewBlockingQueue amd64Int 2 : Outcome (blockingQueue Int))
        = Outcome.done ⟨[0, 0], 0, 0, 0, 2⟩
    ∧ run amd64Int (⟨[0, 0], 0, 0, 0, 2⟩ : blockingQueue Int)
        [Op.put 1, Op.put 2, Op.take, Op.put 3, Op.poll, Op.peek]
        = Outcome.done
          ([Ret.unit, Ret.unit, Ret.val 1, Ret.unit, Ret.val 2, Ret.val 3],
            ⟨[3, 0], 0, 1, 1, 2⟩)
    ∧ ((∃ bq2, run amd64Int (⟨[0, 0], 0, 0, 0, 2⟩ : blockingQueue Int)
          (([5, 7] : List Int).map Op.put
            ++ List.replicate ([5, 7] : List Int).length Op.take)
          = Outcome.done
            (List.replicate ([5, 7] : List Int).length Ret.unit
              ++ ([5, 7] : List Int).map Ret.val, bq2))
      ∧ removedIn amd64Int (⟨[0, 0], 0, 0, 0, 2⟩ : blockingQueue Int)
          [Op.put 1, Op.put 2, Op.take, Op.put 3, Op.poll, Op.peek]
          <+: putsOf [Op.put 1, Op.put 2, Op.take, Op.put 3, Op.poll, Op.peek]
      ∧ ∃ xs, ReadableSlice (⟨[3, 0], 0, 1, 1, 2⟩ : blockingQueue Int)
            = Outcome.done (xs, ⟨[3, 0], 0, 1, 1, 2⟩)
          ∧ removedIn amd64Int (⟨[0, 0], 0, 0, 0, 2⟩ : blockingQueue Int)
              [Op.put 1, Op.put 2, Op.take, Op.put 3, Op.poll, Op.peek] ++ xs
            = putsOf [Op.put 1, Op.put 2, Op.take, Op.put 3, Op.poll, Op.peek]) :=
  ⟨rfl, rfl,
    C1_fifo_order amd64Int 2 ⟨[0, 0], 0, 0, 0, 2⟩ (by rfl) [5, 7] (by decide)
      [Op.put 1, Op.put 2, Op.take, Op.put 3, Op.poll, Op.peek]
      [Ret.unit, Ret.unit, Ret.val 1, Ret.unit, Ret.val 2, Ret.val 3]
      ⟨[3, 0], 0, 1, 1, 2⟩ (by rfl)⟩

/-- C2 (capacity bound).  In every state reachable from `NewBlockingQueue a C`
the size lies in `[0, C]` and is the number of elements `ReadableSlice`
returns.  When the queue is full a `Put` waits, and it still waits after any
call that returned unless that call removed an element. -/
theorem C2_capacity_bound (a : Arch) [Inhabited T] (C : Int) (bq : blockingQueue T)
    (hr : Reachable a C bq) (item : T) :
    0 ≤ bq.size ∧ bq.size ≤ C
    ∧ (∃ xs, ReadableSlice bq = Outcome.done (xs, bq)
        ∧ (xs.length : Int) = bq.size ∧ (xs.length : Int) ≤ C)
    ∧ (bq.size = C →
        Put bq item = Outcome.blocked
        ∧ ∀ (op : Op T) (r : Ret T) (bq1 : blockingQueue T),
            exec a bq op = Outcome.done (r, bq1) →
            Put bq1 item = Outcome.blocked ∨ ∃ v, removedBy bq bq1 r = [v]) := by
  have inv := hr.inv
  have h3 := inv.max_eq
  have h4 := inv.size_nonneg
  have h5 := inv.size_le
  refine ⟨h4, h5, ⟨contents bq, ReadableSlice_eq inv, ?_, ?_⟩, ?_⟩
  · rw [contents_length]
    omega
  · rw [contents_length]
    omega
  · intro hfull
    have hblocked : Put bq item = Outcome.blocked := by
      unfold Put
      rw [if_pos (by omega)]
    refine ⟨hblocked, ?_⟩
    intro op r bq1 he
    rcases exec_cases inv he with ⟨x, -, -, hp⟩ | ⟨x, -, hpos, e2, hd⟩ | ⟨-, e2, -⟩
    · unfold Put at hp
      rw [if_pos (by omega)] at hp
      cases hp
    · right
      obtain ⟨y, bq2, h2, -, -, hs⟩ := dequeue_spec inv hpos
      rw [hd] at h2
      injection h2 with h2
      injection h2 with e3 e4
      subst e2 e4
      have hlt : bq1.size < bq.size := by omega
      exact ⟨x, by simp [removedBy, hlt]⟩
    · left
      rw [e2]
      exact hblocked

/-- Instance of C2 on the full queue of capacity 1 reached by `Put(7)`. -/
theorem C2_capacity_bound_witness :
    Reachable amd64Int 1 (⟨[7], 0, 0, 1, 1⟩ : blockingQueue Int)
    ∧ Put (⟨[7], 0, 0, 1, 1⟩ : blockingQueue Int) 9 = Outcome.blocked
    ∧ ∃ xs, ReadableSlice (⟨[7], 0, 0, 1, 1⟩ : blockingQueue Int)
          = Outcome.done (xs, ⟨[7], 0, 0, 1, 1⟩) ∧ (xs.length : Int) ≤ 1 :=
  have hr : Reachable amd64Int 1 (⟨[7], 0, 0, 1, 1⟩ : blockingQueue Int) :=
    Reachable.step (Op.put 7) Ret.unit (Reachable.init (by rfl)) (by rfl)
  have h := C2_capacity_bound amd64Int 1 ⟨[7], 0, 0, 1, 1⟩ hr 9
  ⟨hr, (h.2.2.2 (by rfl)).1,
    h.2.2.1.elim fun xs hx => ⟨xs, hx.1, hx.2.2⟩⟩

/-- C3 (`Put` appends at the back).  In a reachable state with
`size < maxSize`, `Put(item)` returns, `ReadableSlice` afterwards is
`ReadableSlice` before with `item` appended, and `Size` has grown by one. -/
theorem C3_put_appends (a : Arch) [Inhabited T] (C : Int) (bq : blockingQueue T)
    (hr : Reachable a C bq) (hlt : bq.size < bq.maxSize) (item : T) :
    ∃ xs n bq1, ReadableSlice bq = Outcome.done (xs, bq)
      ∧ Size bq = Outcome.done (n, bq)
      ∧ Put bq item = Outcome.done bq1
      ∧ ReadableSlice bq1 = Outcome.done (xs ++ [item], bq1)
      ∧ Size bq1 = Outcome.done (n + 1, bq1) := by
  have inv := hr.inv
  obtain ⟨bq1, h1, inv1, hc, hs⟩ := Put_spec item inv (by rw [← inv.max_eq]; exact hlt)
  refine ⟨contents bq, bq.size, bq1, ReadableSlice_eq inv, rfl, h1, ?_, ?_⟩
  · rw [ReadableSlice_eq inv1, hc]
  · rw [← hs]
    rfl

/-- Instance of C3 on a wrapped queue of capacity 3 holding `[2, 3]`. -/
theorem C3_put_appends_witness :
    Reachable amd64Int 3 (⟨[0, 2, 3], 1, 0, 2, 3⟩ : blockingQueue Int)
    ∧ ∃ xs n bq1, ReadableSlice (⟨[0, 2, 3], 1, 0, 2, 3⟩ : blockingQueue Int)
          = Outcome.done (xs, ⟨[0, 2, 3], 1, 0, 2, 3⟩)
        ∧ Size (⟨[0, 2, 3], 1, 0, 2, 3⟩ : blockingQueue Int)
          = Outcome.done (n, ⟨[0, 2, 3], 1, 0, 2, 3⟩)
        ∧ Put (⟨[0, 2, 3], 1, 0, 2, 3⟩ : blockingQueue Int) 4 = Outcome.done bq1
        ∧ ReadableSlice bq1 = Outcome.done (xs ++ [4], bq1)
        ∧ Size bq1 = Outcome.done (n + 1, bq1) :=
  have hr : Reachable amd64Int 3 (⟨[0, 2, 3], 1, 0, 2, 3⟩ : blockingQueue Int) :=
    Reachable.step Op.take (Ret.val 1)
      (Reachable.step (Op.put 3) Ret.unit
        (Reachable.step (Op.put 2) Ret.unit
          (Reachable.step (Op.put 1) Ret.unit (Reachable.init (by rfl)) (by rfl))
          (by rfl))
        (by rfl))
      (by rfl)
  ⟨hr, C3_put_appends amd64Int 3 ⟨[0, 2, 3], 1, 0, 2, 3⟩ hr (by decide) 4⟩

/-- C4 (`Take` removes the front).  In a reachable state with `size > 0`,
`Take` returns the first element of `ReadableSlice`, `ReadableSlice` afterwards
is the earlier one without its first element, and `Size` has shrunk by one. -/
theorem C4_take_removes_front (a : Arch) [Inhabited T] (C : Int) (bq : blockingQueue T)
    (hr : Reachable a C bq) (hpos : 0 < bq.size) :
    ∃ x xs n bq1, ReadableSlice bq = Outcome.done (x :: xs, bq)
      ∧ Size bq = Outcome.done (n, bq)
      ∧ Take bq = Outcome.done (x, bq1)
      ∧ ReadableSlice bq1 = Outcome.done (xs, bq1)
      ∧ Size bq1 = Outcome.done (n - 1, bq1) := by
  have inv := hr.inv
  have hne : bq.size ≠ 0 := by omega
  obtain ⟨x, bq1, h1, inv1, hc, hs⟩ := dequeue_spec inv hne
  refine ⟨x, contents bq1, bq.size, bq1, ?_, rfl, ?_, ReadableSlice_eq inv1, ?_⟩
  · rw [ReadableSlice_eq inv, hc]
  · unfold Take
    rw [if_neg hne, h1]
  · rw [← hs]
    rfl

/-- Instance of C4 on the full, wrapped queue of capacity 3 holding `[2, 3, 4]`. -/
theorem C4_take_removes_front_witness :
    Reachable amd64Int 3 (⟨[4, 2, 3], 1, 1, 3, 3⟩ : blockingQueue Int)
    ∧ ∃ x xs n bq1, ReadableSlice (⟨[4, 2, 3], 1, 1, 3, 3⟩ : blockingQueue Int)
          = Outcome.done (x :: xs, ⟨[4, 2, 3], 1, 1, 3, 3⟩)
        ∧ Size (⟨[4, 2, 3], 1, 1, 3, 3⟩ : blockingQueue Int)
          = Outcome.done (n, ⟨[4, 2, 3], 1, 1, 3, 3⟩)
        ∧ Take (⟨[4, 2, 3], 1, 1, 3, 3⟩ : blockingQueue Int) = Outcome.done (x, bq1)
        ∧ ReadableSlice bq1 = Outcome.done (xs, bq1)
        ∧ Size bq1 = Outcome.done (n - 1, bq1) :=
  have hr : Reachable amd64Int 3 (⟨[4, 2, 3], 1, 1, 3, 3⟩ : blockingQueue Int) :=
    Reachable.step (Op.put 4) Ret.unit
      (Reachable.step Op.take (Ret.val 1)
        (Reachable.step (Op.put 3) Ret.unit
          (Reachable.step (Op.put 2) Ret.unit
            (Reachable.step (Op.put 1) Ret.unit (Reachable.init (by rfl)) (by rfl))
            (by rfl))
          (by rfl))
        (by rfl))
      (by rfl)
  ⟨hr, C4_take_removes_front amd64Int 3 ⟨[4, 2, 3], 1, 1, 3, 3⟩ hr (by decide)⟩

/-- The front of `ReadableSlice` is the slot `CompareAndPoll` and `Peek` read. -/
theorem front_readAt [Inhabited T] {C : Int} {bq : blockingQueue T} {x : T} {xs : List T}
    (inv : Inv C bq) (h : ReadableSlice bq = Outcome.done (x :: xs, bq)) :
    bq.size ≠ 0 ∧ readAt bq.items bq.headIdx = some x := by
  rw [ReadableSlice_eq inv] at h
  injection h with h
  injection h with h _
  have hpos : bq.size ≠ 0 := by
    intro h0
    rw [contents_eq_nil h0] at h
    cases h
  obtain ⟨y, hy, hf⟩ := readAt_head inv hpos
  rw [h] at hf
  injection hf with hf
  rw [hf]
  exact ⟨hpos, hy⟩

/-- C5 (`CompareAndPoll`).  In a reachable state: (i) on an empty queue it
returns the zero value and leaves the state as it is; with front element `x`,
(ii) if `pred x` is true it returns `x` and leaves the state `Poll` would,
(iii) if `pred x` is false it returns the zero value and leaves the state as it
is; and two predicates that agree on `x` give the same outcome. -/
theorem C5_compare_and_poll (a : Arch) [Inhabited T] (C : Int) (bq : blockingQueue T)
    (hr : Reachable a C bq) (pred : T → Bool) :
    (bq.size = 0 → CompareAndPoll bq pred = Outcome.done (default, bq))
    ∧ ∀ (x : T) (xs : List T), ReadableSlice bq = Outcome.done (x :: xs, bq) →
        (pred x = true →
          CompareAndPoll bq pred = Poll bq ∧ ∃ bq1, Poll bq = Outcome.done (x, bq1))
        ∧ (pred x = false → CompareAndPoll bq pred = Outcome.done (default, bq))
        ∧ ∀ pred2 : T → Bool, pred2 x = pred x →
            CompareAndPoll bq pred2 = CompareAndPoll bq pred := by
  have inv := hr.inv
  refine ⟨?_, ?_⟩
  · intro h0
    unfold CompareAndPoll
    rw [if_pos h0]
  · intro x xs hx
    obtain ⟨hpos, hread⟩ := front_readAt inv hx
    refine ⟨?_, ?_, ?_⟩
    · intro ht
      refine ⟨?_, ?_⟩
      · simp only [CompareAndPoll, Poll, if_neg hpos, hread, ht, if_true]
      · obtain ⟨y, bq1, h1, -, hc, -⟩ := dequeue_spec inv hpos
        rw [dequeue_eq inv hpos hread] at h1
        injection h1 with h1
        injection h1 with e1 e2
        subst e1
        refine ⟨bq1, ?_⟩
        simp only [Poll, if_neg hpos, dequeue_eq inv hpos hread, e2]
    · intro hf
      simp only [CompareAndPoll, if_neg hpos, hread, hf]
      rfl
    · intro pred2 he
      simp only [CompareAndPoll, if_neg hpos, hread, he]

/-- Instance of C5 on a queue of capacity 3 holding `[2, 3]`, with the
predicate "is even". -/
theorem C5_compare_and_poll_witness :
    Reachable amd64Int 3 (⟨[0, 2, 3], 1, 0, 2, 3⟩ : blockingQueue Int)
    ∧ ReadableSlice (⟨[0, 2, 3], 1, 0, 2, 3⟩ : blockingQueue Int)
        = Outcome.done ([2, 3], ⟨[0, 2, 3], 1, 0, 2, 3⟩)
    ∧ CompareAndPoll (⟨[0, 2, 3], 1, 0, 2, 3⟩ : blockingQueue Int) (fun v => v % 2 == 0)
        = Poll ⟨[0, 2, 3], 1, 0, 2, 3⟩
    ∧ ∃ bq1, Poll (⟨[0, 2, 3], 1, 0, 2, 3⟩ : blockingQueue Int) = Outcome.done (2, bq1) :=
  have hr : Reachable amd64Int 3 (⟨[0, 2, 3], 1, 0, 2, 3⟩ : blockingQueue Int) :=
    Reachable.step Op.take (Ret.val 1)
      (Reachable.step (Op.put 3) Ret.unit
        (Reachable.step (Op.put 2) Ret.unit
          (Reachable.step (Op.put 1) Ret.unit (Reachable.init (by rfl)) (by rfl))
          (by rfl))
        (by rfl))
      (by rfl)
  have h := ((C5_compare_and_poll amd64Int 3 ⟨[0, 2, 3], 1, 0, 2, 3⟩ hr
    (fun v => v % 2 == 0)).2 2 [3] (by rfl)).1 (by rfl)
  ⟨hr, by rfl, h.1, h.2⟩

/-- C6 (`Poll` on empty).  In every state with `size == 0`, reachable or not,
`Poll` returns the zero value and the state it was called on: items, head,
tail and size are the same, and so is what `Size` returns. -/
theorem C6_poll_empty [Inhabited T] (bq : blockingQueue T) (h0 : bq.size = 0) :
    Poll bq = Outcome.done (default, bq)
    ∧ ∀ v bq1, Poll bq = Outcome.done (v, bq1) →
        v = default ∧ bq1.items = bq.items ∧ bq1.headIdx = bq.headIdx
        ∧ bq1.tailIdx = bq.tailIdx ∧ bq1.size = bq.size ∧ Size bq1 = Size bq := by
  have h : Poll bq = Outcome.done (default, bq) := by
    unfold Poll
    rw [if_pos h0]
  refine ⟨h, ?_⟩
  intro v bq1 h1
  rw [h] at h1
  injection h1 with h1
  injection h1 with e1 e2
  subst e1 e2
  exact ⟨rfl, rfl, rfl, rfl, rfl, rfl⟩

/-- Instance of C6 on the empty queue of capacity 2 left by `Put(1)`, `Take()`. -/
theorem C6_poll_empty_witness :
    Reachable amd64Int 2 (⟨[0, 0], 1, 1, 0, 2⟩ : blockingQueue Int)
    ∧ Poll (⟨[0, 0], 1, 1, 0, 2⟩ : blockingQueue Int)
        = Outcome.done (0, ⟨[0, 0], 1, 1, 0, 2⟩) :=
  ⟨Reachable.step Op.take (Ret.val 1)
      (Reachable.step (Op.put 1) Ret.unit (Reachable.init (by rfl)) (by rfl)) (by rfl),
    (C6_poll_empty ⟨[0, 0], 1, 1, 0, 2⟩ (by rfl)).1⟩

/-- C7 (`Poll` on a non-empty queue is `Take`).  In a reachable state with
`size > 0`, `Poll` and `Take` have the same outcome, and that outcome is a
returned value with a new state. -/
theorem C7_poll_eq_take (a : Arch) [Inhabited T] (C : Int) (bq : blockingQueue T)
    (hr : Reachable a C bq) (hpos : 0 < bq.size) :
    Poll bq = Take bq ∧ ∃ x bq1, Take bq = Outcome.done (x, bq1) := by
  have inv := hr.inv
  have hne : bq.size ≠ 0 := by omega
  obtain ⟨x, bq1, h1, -, -, -⟩ := dequeue_spec inv hne
  refine ⟨?_, x, bq1, ?_⟩
  · unfold Poll Take
    rw [if_neg hne, if_neg hne]
  · unfold Take
    rw [if_neg hne, h1]

/-- Instance of C7 on the queue of capacity 2 holding `[5]`. -/
theorem C7_poll_eq_take_witness :
    Reachable amd64Int 2 (⟨[5, 0], 0, 1, 1, 2⟩ : blockingQueue Int)
    ∧ Poll (⟨[5, 0], 0, 1, 1, 2⟩ : blockingQueue Int) = Take ⟨[5, 0], 0, 1, 1, 2⟩
    ∧ ∃ x bq1, Take (⟨[5, 0], 0, 1, 1, 2⟩ : blockingQueue Int) = Outcome.done (x, bq1) :=
  have hr : Reachable amd64Int 2 (⟨[5, 0], 0, 1, 1, 2⟩ : blockingQueue Int) :=
    Reachable.step (Op.put 5) Ret.unit (Reachable.init (by rfl)) (by rfl)
  ⟨hr, C7_poll_eq_take amd64Int 2 ⟨[5, 0], 0, 1, 1, 2⟩ hr (by decide)⟩

/-- C8 (`Peek` returns the front).  In a reachable state: when `size > 0`,
`Peek` returns the first element of `ReadableSlice`, which is also what `Take`
and `Poll` return next; when `size == 0` it returns the zero value. -/
theorem C8_peek_front (a : Arch) [Inhabited T] (C : Int) (bq : blockingQueue T)
    (hr : Reachable a C bq) :
    (0 < bq.size →
      ∃ x xs bq1, ReadableSlice bq = Outcome.done (x :: xs, bq)
        ∧ Peek bq = Outcome.done (x, bq)
        ∧ Take bq = Outcome.done (x, bq1) ∧ Poll bq = Outcome.done (x, bq1))
    ∧ (bq.size = 0 → Peek bq = Outcome.done (default, bq)) := by
  have inv := hr.inv
  refine ⟨?_, ?_⟩
  · intro hpos
    have hne : bq.size ≠ 0 := by omega
    obtain ⟨x, bq1, h1, -, hc, -⟩ := dequeue_spec inv hne
    obtain ⟨y, hy, hf⟩ := Peek_eq inv hne
    rw [hc] at hf
    injection hf with hf
    subst hf
    refine ⟨x, contents bq1, bq1, ?_, hy, ?_, ?_⟩
    · rw [ReadableSlice_eq inv, hc]
    · unfold Take
      rw [if_neg hne, h1]
    · unfold Poll
      rw [if_neg hne, h1]
  · intro h0
    unfold Peek
    rw [if_pos h0]

/-- Instance of C8 on the full, wrapped queue of capacity 3 holding `[2, 3, 4]`. -/
theorem C8_peek_front_witness :
    Reachable amd64Int 3 (⟨[4, 2, 3], 1, 1, 3, 3⟩ : blockingQueue Int)
    ∧ ∃ x xs bq1, ReadableSlice (⟨[4, 2, 3], 1, 1, 3, 3⟩ : blockingQueue Int)
          = Outcome.done (x :: xs, ⟨[4, 2, 3], 1, 1, 3, 3⟩)
        ∧ Peek (⟨[4, 2, 3], 1, 1, 3, 3⟩ : blockingQueue Int)
          = Outcome.done (x, ⟨[4, 2, 3], 1, 1, 3, 3⟩)
        ∧ Take (⟨[4, 2, 3], 1, 1, 3, 3⟩ : blockingQueue Int) = Outcome.done (x, bq1)
        ∧ Poll (⟨[4, 2, 3], 1, 1, 3, 3⟩ : blockingQueue Int) = Outcome.done (x, bq1) :=
  have hr : Reachable amd64Int 3 (⟨[4, 2, 3], 1, 1, 3, 3⟩ : blockingQueue Int) :=
    Reachable.step (Op.put 4) Ret.unit
      (Reachable.step Op.take (Ret.val 1)
        (Reachable.step (Op.put 3) Ret.unit
          (Reachable.step (Op.put 2) Ret.unit
            (Reachable.step (Op.put 1) Ret.unit (Reachable.init (by rfl)) (by rfl))
            (by rfl))
          (by rfl))
        (by rfl))
      (by rfl)
  ⟨hr, (C8_peek_front amd64Int 3 ⟨[4, 2, 3], 1, 1, 3, 3⟩ hr).1 (by decide)⟩

/-- C9, as the code has it.  In a reachable state in which `headIdx + size - 1`
does not exceed `math.MaxInt`, `PeekLast` returns the last element of
`ReadableSlice` when `size > 0`; it returns the zero value when `size == 0`;
and right after a `Put(item)` that returned on a state with
`headIdx + size ≤ math.MaxInt`, `PeekLast` returns `item`.  The sum stays
within `math.MaxInt` in every reachable state of a queue whose capacity `C`
has `2 * C - 2 ≤ math.MaxInt`. -/
theorem C9_peek_last (a : Arch) [Inhabited T] (C : Int) (bq : blockingQueue T)
    (hr : Reachable a C bq) :
    (0 < bq.size → bq.headIdx + bq.size - 1 ≤ a.maxInt →
      ∃ x xs, ReadableSlice bq = Outcome.done (xs, bq)
        ∧ xs.getLast? = some x ∧ PeekLast a bq = Outcome.done (x, bq))
    ∧ (bq.size = 0 → PeekLast a bq = Outcome.done (default, bq))
    ∧ (∀ (item : T) (bq1 : blockingQueue T), Put bq item = Outcome.done bq1 →
        bq.headIdx + bq.size ≤ a.maxInt →
        PeekLast a bq1 = Outcome.done (item, bq1))
    ∧ (2 * C - 2 ≤ a.maxInt →
        (0 < bq.size → bq.headIdx + bq.size - 1 ≤ a.maxInt)
        ∧ (bq.size < C → bq.headIdx + bq.size ≤ a.maxInt)) := by
  have inv := hr.inv
  refine ⟨?_, ?_, ?_, ?_⟩
  · intro hpos hov
    obtain ⟨x, hx, hl⟩ := PeekLast_eq inv (by omega) hov
    exact ⟨x, contents bq, ReadableSlice_eq inv, hl, hx⟩
  · intro h0
    unfold PeekLast
    rw [if_pos h0]
  · intro item bq1 hp hov
    have inv1 := Put_inv inv hp
    have hc := Put_contents inv hp
    have hne : bq1.size ≠ 0 := by
      intro h0
      rw [contents_eq_nil h0] at hc
      simp at hc
    have hlt : bq.size < C := by
      have := inv.size_le
      have := inv.max_eq
      by_contra hcon
      have : bq.size = bq.maxSize := by omega
      simp [Put, this] at hp
    have hov1 : bq1.headIdx + bq1.size - 1 ≤ a.maxInt := by
      rw [Put_eq item inv hlt] at hp
      injection hp with hp
      subst hp
      simp only
      omega
    obtain ⟨x, hx, hl⟩ := PeekLast_eq inv1 hne hov1
    rw [hc, List.getLast?_concat] at hl
    injection hl with hl
    rw [hl]
    exact hx
  · intro hcap
    obtain ⟨h1, h2, h3, h4, h5, h6, h7, h8⟩ := inv
    constructor <;> intro _ <;> omega

/-- Instance of C9: on the queue of capacity 3 holding `[2, 3]` with head at
slot 1, `Put(4)` writes slot 0 (the buffer wraps) and `PeekLast` returns 4. -/
theorem C9_peek_last_witness :
    Reachable amd64Int 3 (⟨[0, 2, 3], 1, 0, 2, 3⟩ : blockingQueue Int)
    ∧ Put (⟨[0, 2, 3], 1, 0, 2, 3⟩ : blockingQueue Int) 4
        = Outcome.done ⟨[4, 2, 3], 1, 1, 3, 3⟩
    ∧ (1 : Int) + 2 ≤ amd64Int.maxInt
    ∧ PeekLast amd64Int (⟨[4, 2, 3], 1, 1, 3, 3⟩ : blockingQueue Int)
        = Outcome.done (4, ⟨[4, 2, 3], 1, 1, 3, 3⟩) :=
  have hr : Reachable amd64Int 3 (⟨[0, 2, 3], 1, 0, 2, 3⟩ : blockingQueue Int) :=
    Reachable.step Op.take (Ret.val 1)
      (Reachable.step (Op.put 3) Ret.unit
        (Reachable.step (Op.put 2) Ret.unit
          (Reachable.step (Op.put 1) Ret.unit (Reachable.init (by rfl)) (by rfl))
          (by rfl))
        (by rfl))
      (by rfl)
  ⟨hr, by rfl, by decide,
    (C9_peek_last amd64Int 3 ⟨[0, 2, 3], 1, 0, 2, 3⟩ hr).2.2.1 4 ⟨[4, 2, 3], 1, 1, 3, 3⟩
      (by rfl) (by decide)⟩

/-- In a state satisfying the invariant, `(headIdx + i) mod maxSize` is the
wrapped index of logical slot `i`. -/
theorem emod_wrapIdx {C : Int} {bq : blockingQueue T} (inv : Inv C bq) (i : Nat)
    (hi : i < bq.size.toNat) :
    (bq.headIdx + (i : Int)) % bq.maxSize
      = ((wrapIdx bq.items.length bq.headIdx.toNat i : Nat) : Int) := by
  obtain ⟨h1, h2, h3, h4, h5, h6, h7, h8⟩ := inv
  have e : bq.headIdx + (i : Int) = ((bq.headIdx.toNat + i : Nat) : Int) := by omega
  rw [e, h3, ← h2, wrapIdx_eq_mod (by omega) (by omega)]
  norm_cast

/-- C10 (`ReadableSlice` is the ordered content).  In a reachable state
`ReadableSlice` returns a slice whose length is what `Size` returns and whose
`i`-th element is the slot of `items` at index `(headIdx + i) mod maxSize`. -/
theorem C10_readable_slice (a : Arch) [Inhabited T] (C : Int) (bq : blockingQueue T)
    (hr : Reachable a C bq) :
    ∃ xs, ReadableSlice bq = Outcome.done (xs, bq)
      ∧ Size bq = Outcome.done ((xs.length : Int), bq)
      ∧ ∀ i : Nat, (i : Int) < bq.size →
          xs[i]? = readAt bq.items ((bq.headIdx + (i : Int)) % bq.maxSize)
          ∧ ∃ x, xs[i]? = some x := by
  have inv := hr.inv
  have hlen : ((contents bq).length : Int) = bq.size := by
    rw [contents_length]
    have := inv.size_nonneg
    omega
  refine ⟨contents bq, ReadableSlice_eq inv, ?_, ?_⟩
  · rw [hlen]
    rfl
  · intro i hi
    have hi1 : i < bq.size.toNat := by omega
    have hi2 : i < (contents bq).length := by
      rw [contents_length]
      exact hi1
    have hlt : wrapIdx bq.items.length bq.headIdx.toNat i < bq.items.length := by
      obtain ⟨h1, h2, h3, h4, h5, h6, h7, h8⟩ := inv
      exact wrapIdx_lt (by omega) (by omega)
    rw [emod_wrapIdx inv i hi1, List.getElem?_eq_getElem hi2, contents_getElem]
    refine ⟨?_, _, rfl⟩
    unfold readAt
    rw [if_neg (by omega), Int.toNat_ofNat, List.getElem?_eq_getElem hlt]
    rfl

/-- Instance of C10 on the full, wrapped queue of capacity 3 holding `[2, 3, 4]`. -/
theorem C10_readable_slice_witness :
    Reachable amd64Int 3 (⟨[4, 2, 3], 1, 1, 3, 3⟩ : blockingQueue Int)
    ∧ ∃ xs, ReadableSlice (⟨[4, 2, 3], 1, 1, 3, 3⟩ : blockingQueue Int)
          = Outcome.done (xs, ⟨[4, 2, 3], 1, 1, 3, 3⟩)
        ∧ Size (⟨[4, 2, 3], 1, 1, 3, 3⟩ : blockingQueue Int)
          = Outcome.done ((xs.length : Int), ⟨[4, 2, 3], 1, 1, 3, 3⟩)
        ∧ ∀ i : Nat, (i : Int) < 3 →
            xs[i]? = readAt [4, 2, 3] ((1 + (i : Int)) % 3) ∧ ∃ x, xs[i]? = some x :=
  have hr : Reachable amd64Int 3 (⟨[4, 2, 3], 1, 1, 3, 3⟩ : blockingQueue Int) :=
    Reachable.step (Op.put 4) Ret.unit
      (Reachable.step Op.take (Ret.val 1)
        (Reachable.step (Op.put 3) Ret.unit
          (Reachable.step (Op.put 2) Ret.unit
            (Reachable.step (Op.put 1) Ret.unit (Reachable.init (by rfl)) (by rfl))
            (by rfl))
          (by rfl))
        (by rfl))
      (by rfl)
  ⟨hr, C10_readable_slice amd64Int 3 ⟨[4, 2, 3], 1, 1, 3, 3⟩ hr⟩

/-! ## Inspection calls -/

/-- An inspection call returns in every state satisfying the invariant and
hands back the state it was called on; for `PeekLast` on a non-empty queue
this needs `headIdx + size - 1` not to overflow. -/
theorem exec_inspection {a : Arch} [Inhabited T] {C : Int} {bq : blockingQueue T} {op : Op T}
    (inv : Inv C bq) (hop : isInspection op = true)
    (hov : op = Op.peekLast → bq.size ≠ 0 → bq.headIdx + bq.size - 1 ≤ a.maxInt) :
    ∃ r, exec a bq op = Outcome.done (r, bq) := by
  cases op with
  | put item => cases hop
  | take => cases hop
  | poll => cases hop
  | compareAndPoll compare => cases hop
  | peek =>
    by_cases h0 : bq.size = 0
    · exact ⟨Ret.val default, by simp only [exec, Peek, if_pos h0, Outcome.ret]⟩
    · obtain ⟨x, hx, -⟩ := Peek_eq inv h0
      exact ⟨Ret.val x, by simp only [exec, hx, Outcome.ret]⟩
  | peekLast =>
    by_cases h0 : bq.size = 0
    · exact ⟨Ret.val default, by simp only [exec, PeekLast, if_pos h0, Outcome.ret]⟩
    · obtain ⟨x, hx, -⟩ := PeekLast_eq inv h0 (hov rfl h0)
      exact ⟨Ret.val x, by simp only [exec, hx, Outcome.ret]⟩
  | size => exact ⟨Ret.int bq.size, rfl⟩
  | readableSlice =>
    exact ⟨Ret.slice (contents bq), by simp only [exec, ReadableSlice_eq inv, Outcome.ret]⟩

/-- An inspection call that returns hands back the state it was called on, in
every state. -/
theorem exec_inspection_state {a : Arch} [Inhabited T] {bq bq1 : blockingQueue T}
    {op : Op T} {r : Ret T} (hop : isInspection op = true)
    (h : exec a bq op = Outcome.done (r, bq1)) : bq1 = bq := by
  cases op with
  | put item => cases hop
  | take => cases hop
  | poll => cases hop
  | compareAndPoll compare => cases hop
  | peek =>
    obtain ⟨x, hx, -⟩ := ret_done h
    unfold Peek at hx
    split at hx
    · injection hx with hx
      injection hx with _ hx
      exact hx.symm
    · split at hx
      · cases hx
      · injection hx with hx
        injection hx with _ hx
        exact hx.symm
  | peekLast =>
    obtain ⟨x, hx, -⟩ := ret_done h
    exact PeekLast_state hx
  | size =>
    have h1 : (Size bq).ret Ret.int = Outcome.done (r, bq1) := h
    obtain ⟨x, hx, -⟩ := ret_done h1
    unfold Size at hx
    injection hx with hx
    injection hx with _ hx
    exact hx.symm
  | readableSlice =>
    obtain ⟨x, hx, -⟩ := ret_done h
    unfold ReadableSlice at hx
    split at hx
    · cases hx
    · split at hx
      · cases hx
      · injection hx with hx
        injection hx with _ hx
        exact hx.symm

/-- A run of inspection calls that returns ends in the state it started from. -/
theorem run_inspection_state {a : Arch} [Inhabited T] (ops : List (Op T)) :
    ∀ (bq bq1 : blockingQueue T) (rs : List (Ret T)),
      (∀ op ∈ ops, isInspection op = true) →
      run a bq ops = Outcome.done (rs, bq1) → bq1 = bq := by
  induction ops with
  | nil =>
    intro bq bq1 rs _ h
    simp only [run] at h
    injection h with h
    injection h with _ e
    exact e.symm
  | cons op ops ih =>
    intro bq bq1 rs hops h
    simp only [run] at h
    cases he : exec a bq op with
    | done p =>
      obtain ⟨r, bq2⟩ := p
      rw [he] at h
      simp only at h
      cases hr : run a bq2 ops with
      | done q =>
        obtain ⟨rs1, bq3⟩ := q
        rw [hr] at h
        simp only at h
        injection h with h
        injection h with _ e
        subst e
        have e2 := exec_inspection_state (hops op (List.mem_cons_self _ _)) he
        have e3 := ih bq2 bq3 rs1 (fun o ho => hops o (List.mem_cons_of_mem _ ho)) hr
        rw [e3, e2]
      | blocked => rw [hr] at h; cases h
      | panic => rw [hr] at h; cases h
    | blocked => rw [he] at h; cases h
    | panic => rw [he] at h; cases h

/-- C11 (inspection does not mutate).  In a reachable state every run of
`Peek`, `PeekLast`, `Size` and `ReadableSlice` calls, of any length, that
returns ends in the very state it started from: items, head, tail and size are
the same, so `Size` and `ReadableSlice` give the same answers afterwards.  The
run does return when it holds no `PeekLast`, or the queue is empty, or
`headIdx + size - 1` does not exceed `math.MaxInt`, which is so whenever the
capacity `C` has `2 * C - 2 ≤ math.MaxInt`. -/
theorem C11_inspection_pure (a : Arch) [Inhabited T] (C : Int) (bq : blockingQueue T)
    (hr : Reachable a C bq) (ops : List (Op T))
    (hops : ∀ op ∈ ops, isInspection op = true) :
    (((∀ op ∈ ops, op ≠ Op.peekLast) ∨ bq.size = 0
        ∨ bq.headIdx + bq.size - 1 ≤ a.maxInt ∨ 2 * C - 2 ≤ a.maxInt) →
      ∃ rs, run a bq ops = Outcome.done (rs, bq) ∧ rs.length = ops.length)
    ∧ ∀ rs bq1, run a bq ops = Outcome.done (rs, bq1) →
        bq1.items = bq.items ∧ bq1.headIdx = bq.headIdx ∧ bq1.tailIdx = bq.tailIdx
        ∧ bq1.size = bq.size ∧ Size bq1 = Size bq
        ∧ ReadableSlice bq1 = ReadableSlice bq := by
  have inv := hr.inv
  refine ⟨?_, ?_⟩
  · intro hov
    induction ops with
    | nil => exact ⟨[], rfl, rfl⟩
    | cons op ops ih =>
      have hov1 : op = Op.peekLast → bq.size ≠ 0 →
          bq.headIdx + bq.size - 1 ≤ a.maxInt := by
        intro e hne
        rcases hov with h | h | h | h
        · exact absurd e (h op (List.mem_cons_self _ _))
        · exact absurd h hne
        · exact h
        · exact inv.no_overflow h hne
      obtain ⟨r, hr1⟩ := exec_inspection inv (hops op (List.mem_cons_self _ _)) hov1
      obtain ⟨rs, hrs, hl⟩ := ih (fun o ho => hops o (List.mem_cons_of_mem _ ho)) (by
        rcases hov with h | h | h | h
        · exact Or.inl (fun o ho => h o (List.mem_cons_of_mem _ ho))
        · exact Or.inr (Or.inl h)
        · exact Or.inr (Or.inr (Or.inl h))
        · exact Or.inr (Or.inr (Or.inr h)))
      refine ⟨r :: rs, ?_, by simp [hl]⟩
      simp only [run, hr1, hrs]
  · intro rs bq1 h1
    have e := run_inspection_state ops bq bq1 rs hops h1
    subst e
    exact ⟨rfl, rfl, rfl, rfl, rfl, rfl⟩

/-- Instance of C11: six inspection calls on the wrapped queue of capacity 3
holding `[2, 3, 4]`. -/
theorem C11_inspection_pure_witness :
    Reachable amd64Int 3 (⟨[4, 2, 3], 1, 1, 3, 3⟩ : blockingQueue Int)
    ∧ run amd64Int (⟨[4, 2, 3], 1, 1, 3, 3⟩ : blockingQueue Int)
        [Op.peek, Op.peekLast, Op.size, Op.readableSlice, Op.peekLast, Op.peek]
      = Outcome.done
        ([Ret.val 2, Ret.val 4, Ret.int 3, Ret.slice [2, 3, 4], Ret.val 4, Ret.val 2],
          ⟨[4, 2, 3], 1, 1, 3, 3⟩)
    ∧ ∃ rs, run amd64Int (⟨[4, 2, 3], 1, 1, 3, 3⟩ : blockingQueue Int)
          [Op.peek, Op.peekLast, Op.size, Op.readableSlice, Op.peekLast, Op.peek]
        = Outcome.done (rs, ⟨[4, 2, 3], 1, 1, 3, 3⟩)
        ∧ rs.length
          = ([Op.peek, Op.peekLast, Op.size, Op.readableSlice, Op.peekLast, Op.peek] :
              List (Op Int)).length :=
  have hr : Reachable amd64Int 3 (⟨[4, 2, 3], 1, 1, 3, 3⟩ : blockingQueue Int) :=
    Reachable.step (Op.put 4) Ret.unit
      (Reachable.step Op.take (Ret.val 1)
        (Reachable.step (Op.put 3) Ret.unit
          (Reachable.step (Op.put 2) Ret.unit
            (Reachable.step (Op.put 1) Ret.unit (Reachable.init (by rfl)) (by rfl))
            (by rfl))
          (by rfl))
        (by rfl))
      (by rfl)
  ⟨hr, by rfl,
    (C11_inspection_pure amd64Int 3 ⟨[4, 2, 3], 1, 1, 3, 3⟩ hr
      [Op.peek, Op.peekLast, Op.size, Op.readableSlice, Op.peekLast, Op.peek]
      (by simp [isInspection])).1 (Or.inr (Or.inr (Or.inr (by decide))))⟩

/-- C13 (wrap-around scenario).  On a fresh queue of capacity 3 the calls
`Put(1)`, `Put(2)`, `Put(3)` return, each on a queue with `size < maxSize`; the
queue is then full and `Put(4)` waits; `Take` returns 1; after it `Put(4)`
returns; `ReadableSlice` is then `[2, 3, 4]`. -/
theorem C13_wrap_around_scenario :
    (NewBlockingQueue amd64Int 3 : Outcome (blockingQueue Int))
        = Outcome.done ⟨[0, 0, 0], 0, 0, 0, 3⟩
    ∧ Put (⟨[0, 0, 0], 0, 0, 0, 3⟩ : blockingQueue Int) 1
        = Outcome.done ⟨[1, 0, 0], 0, 1, 1, 3⟩
    ∧ Put (⟨[1, 0, 0], 0, 1, 1, 3⟩ : blockingQueue Int) 2
        = Outcome.done ⟨[1, 2, 0], 0, 2, 2, 3⟩
    ∧ Put (⟨[1, 2, 0], 0, 2, 2, 3⟩ : blockingQueue Int) 3
        = Outcome.done ⟨[1, 2, 3], 0, 0, 3, 3⟩
    ∧ Put (⟨[1, 2, 3], 0, 0, 3, 3⟩ : blockingQueue Int) 4 = Outcome.blocked
    ∧ Take (⟨[1, 2, 3], 0, 0, 3, 3⟩ : blockingQueue Int)
        = Outcome.done (1, ⟨[0, 2, 3], 1, 0, 2, 3⟩)
    ∧ Put (⟨[0, 2, 3], 1, 0, 2, 3⟩ : blockingQueue Int) 4
        = Outcome.done ⟨[4, 2, 3], 1, 1, 3, 3⟩
    ∧ ReadableSlice (⟨[4, 2, 3], 1, 1, 3, 3⟩ : blockingQueue Int)
        = Outcome.done ([2, 3, 4], ⟨[4, 2, 3], 1, 1, 3, 3⟩) := by
  refine ⟨?_, ?_, ?_, ?_, ?_, ?_, ?_, ?_⟩ <;> rfl

/-! ## Free slots hold the zero value -/

theorem ZeroFree_init {a : Arch} [Inhabited T] {C : Int} {bq : blockingQueue T}
    (h : NewBlockingQueue a C = Outcome.done bq) : ZeroFree bq := by
  unfold NewBlockingQueue at h
  split at h
  · cases h
  · injection h with h
    subst h
    intro i _ hi
    simp only [List.length_replicate] at hi ⊢
    have hlt : wrapIdx C.toNat (0 : Int).toNat i < C.toNat := by
      unfold wrapIdx
      split <;> simp at * <;> omega
    rw [List.getElem?_eq_getElem (by simpa using hlt), List.getElem_replicate]

theorem Put_zeroFree [Inhabited T] {C : Int} {bq bq1 : blockingQueue T} {item : T}
    (inv : Inv C bq) (hz : ZeroFree bq) (h : Put bq item = Outcome.done bq1) :
    ZeroFree bq1 := by
  have hlt : bq.size < C := by
    have := inv.size_le
    have := inv.max_eq
    by_contra hc
    have : bq.size = bq.maxSize := by omega
    simp [Put, this] at h
  rw [Put_eq item inv hlt] at h
  injection h with h
  subst h
  have ht := inv.tail_toNat hlt
  obtain ⟨h1, h2, h3, h4, h5, h6, h7, h8⟩ := inv
  intro i hi1 hi2
  simp only [List.length_set] at hi1 hi2 ⊢
  have hne : bq.tailIdx.toNat ≠ wrapIdx bq.items.length bq.headIdx.toNat i := by
    rw [ht]
    intro e
    have := wrapIdx_inj (by omega) (by omega) e
    omega
  rw [List.getElem?_set_ne hne]
  exact hz i (by omega) hi2

theorem dequeue_zeroFree [Inhabited T] {C : Int} {bq bq1 : blockingQueue T} {x : T}
    (inv : Inv C bq) (hz : ZeroFree bq) (hpos : bq.size ≠ 0)
    (h : dequeue bq = Outcome.done (x, bq1)) :
    ZeroFree bq1 ∧ readAt bq1.items bq.headIdx = some default := by
  obtain ⟨y, hy, -⟩ := readAt_head inv hpos
  rw [dequeue_eq inv hpos hy] at h
  injection h with h
  injection h with e1 e2
  subst e2
  have hb := inv.head_bounds hpos
  obtain ⟨h1, h2, h3, h4, h5, h6, h7, h8⟩ := inv
  refine ⟨?_, ?_⟩
  · intro i hi1 hi2
    simp only [List.length_set] at hi1 hi2 ⊢
    by_cases hk : bq.headIdx.toNat
        = wrapIdx bq.items.length (if bq.headIdx + 1 = C then 0 else bq.headIdx + 1).toNat i
    · rw [← hk, List.getElem?_set_self hb]
    · rw [List.getElem?_set_ne hk]
      have hidx : wrapIdx bq.items.length
          (if bq.headIdx + 1 = C then 0 else bq.headIdx + 1).toNat i
          = wrapIdx bq.items.length bq.headIdx.toNat (i + 1) := by
        unfold wrapIdx
        split <;> split <;> split <;> omega
      have hi3 : i + 1 < bq.items.length := by
        by_contra hc
        apply hk
        unfold wrapIdx
        split <;> split <;> omega
      rw [hidx]
      exact hz (i + 1) (by omega) hi3
  · unfold readAt
    rw [if_neg (by omega)]
    simp only
    rw [List.getElem?_set_self hb]

/-- Every call that returns keeps the free slots zero. -/
theorem exec_zeroFree {a : Arch} [Inhabited T] {C : Int} {bq bq1 : blockingQueue T} {op : Op T}
    {r : Ret T} (inv : Inv C bq) (hz : ZeroFree bq)
    (h : exec a bq op = Outcome.done (r, bq1)) : ZeroFree bq1 := by
  rcases exec_cases inv h with ⟨x, -, -, hp⟩ | ⟨x, -, hpos, -, hd⟩ | ⟨-, e, -⟩
  · exact Put_zeroFree inv hz hp
  · exact (dequeue_zeroFree inv hz hpos hd).1
  · rw [e]
    exact hz

theorem Reachable.zeroFree {a : Arch} [Inhabited T] {C : Int} {bq : blockingQueue T}
    (h : Reachable a C bq) : ZeroFree bq := by
  induction h with
  | init h0 => exact ZeroFree_init h0
  | step op r hprev hstep ih => exact exec_zeroFree hprev.inv ih hstep

/-- In a state satisfying the invariant, `(headIdx + i) mod maxSize` is the
wrapped index of slot `i` for every `i` up to the buffer length. -/
theorem emod_wrapIdx_le {C : Int} {bq : blockingQueue T} (inv : Inv C bq) (i : Nat)
    (hi : i < bq.items.length) :
    (bq.headIdx + (i : Int)) % bq.maxSize
      = ((wrapIdx bq.items.length bq.headIdx.toNat i : Nat) : Int) := by
  obtain ⟨h1, h2, h3, h4, h5, h6, h7, h8⟩ := inv
  have e : bq.headIdx + (i : Int) = ((bq.headIdx.toNat + i : Nat) : Int) := by omega
  rw [e, h3, ← h2, wrapIdx_eq_mod (by omega) (by omega)]
  norm_cast

/-- C16 (clear-on-dequeue invariant).  In a reachable state the `size` slots
starting at `headIdx`, wrapping modulo the capacity, are the elements
`ReadableSlice` returns, and every other slot of `items` holds the zero value;
after a call that removed an element the slot that was the head holds the zero
value. -/
theorem C16_clear_on_dequeue (a : Arch) [Inhabited T] (C : Int) (bq : blockingQueue T)
    (hr : Reachable a C bq) :
    (∃ xs, ReadableSlice bq = Outcome.done (xs, bq) ∧ (xs.length : Int) = bq.size
      ∧ ∀ i : Nat, (i : Int) < bq.size →
          readAt bq.items ((bq.headIdx + (i : Int)) % bq.maxSize) = xs[i]?)
    ∧ (∀ i : Nat, bq.size ≤ (i : Int) → (i : Int) < C →
        readAt bq.items ((bq.headIdx + (i : Int)) % bq.maxSize) = some default)
    ∧ ∀ (op : Op T) (r : Ret T) (bq1 : blockingQueue T),
        exec a bq op = Outcome.done (r, bq1) → bq1.size < bq.size →
        readAt bq1.items bq.headIdx = some default := by
  have inv := hr.inv
  have hz := hr.zeroFree
  have hlen : ((contents bq).length : Int) = bq.size := by
    rw [contents_length]
    have := inv.size_nonneg
    omega
  have hread : ∀ i : Nat, i < bq.items.length →
      readAt bq.items ((bq.headIdx + (i : Int)) % bq.maxSize)
        = bq.items[wrapIdx bq.items.length bq.headIdx.toNat i]? := by
    intro i hi
    rw [emod_wrapIdx_le inv i hi]
    unfold readAt
    rw [if_neg (by omega), Int.toNat_ofNat]
  have hL := inv.len_items
  have hsz := inv.size_le
  have hs0 := inv.size_nonneg
  refine ⟨⟨contents bq, ReadableSlice_eq inv, hlen, ?_⟩, ?_, ?_⟩
  · intro i hi
    have hi2 : i < (contents bq).length := by omega
    have hlt : wrapIdx bq.items.length bq.headIdx.toNat i < bq.items.length := by
      obtain ⟨h1, h2, h3, h4, h5, h6, h7, h8⟩ := inv
      exact wrapIdx_lt (by omega) (by omega)
    rw [hread i (by omega), List.getElem?_eq_getElem hi2, contents_getElem,
      List.getElem?_eq_getElem hlt]
    rfl
  · intro i hi1 hi2
    rw [hread i (by omega)]
    exact hz i (by omega) (by omega)
  · intro op r bq1 he hlt
    rcases exec_cases inv he with ⟨x, -, -, hp⟩ | ⟨x, -, hpos, -, hd⟩ | ⟨-, e, -⟩
    · obtain ⟨bq2, h2, -, -, hs⟩ := Put_spec x inv (by
        by_contra hc
        have hm := inv.max_eq
        have : bq.size = bq.maxSize := by omega
        simp [Put, this] at hp)
      rw [hp] at h2
      injection h2 with h2
      subst h2
      omega
    · exact (dequeue_zeroFree inv hz hpos hd).2
    · rw [e] at hlt
      omega

/-- Instance of C16: on the queue of capacity 3 holding `[2, 3]` slot 0 is
free and zero, and after `Take` returned 2 the vacated slot 1 is zero. -/
theorem C16_clear_on_dequeue_witness :
    Reachable amd64Int 3 (⟨[0, 2, 3], 1, 0, 2, 3⟩ : blockingQueue Int)
    ∧ exec amd64Int (⟨[0, 2, 3], 1, 0, 2, 3⟩ : blockingQueue Int) Op.take
        = Outcome.done (Ret.val 2, ⟨[0, 0, 3], 2, 0, 1, 3⟩)
    ∧ readAt ([0, 2, 3] : List Int) ((1 + ((2 : Nat) : Int)) % 3) = some default
    ∧ readAt ([0, 0, 3] : List Int) 1 = some default :=
  have hr : Reachable amd64Int 3 (⟨[0, 2, 3], 1, 0, 2, 3⟩ : blockingQueue Int) :=
    Reachable.step Op.take (Ret.val 1)
      (Reachable.step (Op.put 3) Ret.unit
        (Reachable.step (Op.put 2) Ret.unit
          (Reachable.step (Op.put 1) Ret.unit (Reachable.init (by rfl)) (by rfl))
          (by rfl))
        (by rfl))
      (by rfl)
  have h := C16_clear_on_dequeue amd64Int 3 ⟨[0, 2, 3], 1, 0, 2, 3⟩ hr
  ⟨hr, by rfl, h.2.1 2 (by decide) (by decide),
    h.2.2 Op.take (Ret.val 2) ⟨[0, 0, 3], 2, 0, 1, 3⟩ (by rfl) (by decide)⟩

/-! ## Index stepping -/

theorem step_emod {C a : Int} (h0 : 0 ≤ a) (h1 : a < C) :
    (a + 1) % C = if a + 1 = C then 0 else a + 1 := by
  split
  · rename_i e
    rw [e, Int.emod_self]
  · exact Int.emod_eq_of_lt (by omega) (by omega)

theorem Inv.idx_bounds {C : Int} {bq : blockingQueue T} (inv : Inv C bq) (hC : 1 ≤ C) :
    0 ≤ bq.headIdx ∧ bq.headIdx < C ∧ 0 ≤ bq.tailIdx ∧ bq.tailIdx < C := by
  obtain ⟨h1, h2, h3, h4, h5, h6, h7, h8⟩ := inv
  omega

/-- A `Put` that returned stepped `tailIdx` by one modulo the capacity and left
`headIdx` alone. -/
theorem Put_step {C : Int} {bq bq1 : blockingQueue T} {item : T} (inv : Inv C bq)
    (hC : 1 ≤ C) (h : Put bq item = Outcome.done bq1) :
    bq1.tailIdx = (bq.tailIdx + 1) % C ∧ bq1.headIdx = bq.headIdx := by
  have hlt : bq.size < C := by
    have := inv.size_le
    have := inv.max_eq
    by_contra hc
    have : bq.size = bq.maxSize := by omega
    simp [Put, this] at h
  rw [Put_eq item inv hlt] at h
  injection h with h
  subst h
  have hb := inv.idx_bounds hC
  refine ⟨?_, rfl⟩
  rw [step_emod hb.2.2.1 hb.2.2.2]
  simp only
  split <;> split <;> omega

/-- A `dequeue` on a non-empty queue stepped `headIdx` by one modulo the
capacity and left `tailIdx` alone. -/
theorem dequeue_step [Inhabited T] {C : Int} {bq bq1 : blockingQueue T} {x : T}
    (inv : Inv C bq) (hC : 1 ≤ C) (hpos : bq.size ≠ 0)
    (h : dequeue bq = Outcome.done (x, bq1)) :
    bq1.headIdx = (bq.headIdx + 1) % C ∧ bq1.tailIdx = bq.tailIdx := by
  obtain ⟨y, hy, -⟩ := readAt_head inv hpos
  rw [dequeue_eq inv hpos hy] at h
  injection h with h
  injection h with e1 e2
  subst e2
  have hb := inv.idx_bounds hC
  exact ⟨(step_emod hb.1 hb.2.1).symm, rfl⟩

/-- C17 (index stepping).  In a state reachable from `NewBlockingQueue a C`,
`C ≥ 1`: `headIdx` and `tailIdx` lie in `[0, C)`; a `Put` that returns sets
`tailIdx` to `(tailIdx + 1) mod C` and keeps `headIdx`; a removal (`Take`,
`Poll` on a non-empty queue, `CompareAndPoll` whose predicate accepts the front
element, or any call that made `size` smaller) sets `headIdx` to
`(headIdx + 1) mod C` and keeps `tailIdx`. -/
theorem C17_index_stepping (a : Arch) [Inhabited T] (C : Int) (hC : 1 ≤ C) (bq : blockingQueue T)
    (hr : Reachable a C bq) :
    (0 ≤ bq.headIdx ∧ bq.headIdx < C ∧ 0 ≤ bq.tailIdx ∧ bq.tailIdx < C)
    ∧ (∀ item bq1, Put bq item = Outcome.done bq1 →
        bq1.tailIdx = (bq.tailIdx + 1) % C ∧ bq1.headIdx = bq.headIdx)
    ∧ (∀ x bq1, Take bq = Outcome.done (x, bq1) →
        bq1.headIdx = (bq.headIdx + 1) % C ∧ bq1.tailIdx = bq.tailIdx)
    ∧ (∀ x bq1, bq.size ≠ 0 → Poll bq = Outcome.done (x, bq1) →
        bq1.headIdx = (bq.headIdx + 1) % C ∧ bq1.tailIdx = bq.tailIdx)
    ∧ (∀ (pred : T → Bool) x xs v bq1,
        ReadableSlice bq = Outcome.done (x :: xs, bq) → pred x = true →
        CompareAndPoll bq pred = Outcome.done (v, bq1) →
        bq1.headIdx = (bq.headIdx + 1) % C ∧ bq1.tailIdx = bq.tailIdx)
    ∧ ∀ (op : Op T) (r : Ret T) (bq1 : blockingQueue T),
        exec a bq op = Outcome.done (r, bq1) → bq1.size < bq.size →
        bq1.headIdx = (bq.headIdx + 1) % C ∧ bq1.tailIdx = bq.tailIdx := by
  have inv := hr.inv
  refine ⟨inv.idx_bounds hC, ?_, ?_, ?_, ?_, ?_⟩
  · intro item bq1 h
    exact Put_step inv hC h
  · intro x bq1 h
    unfold Take at h
    split at h
    · cases h
    · rename_i hpos
      exact dequeue_step inv hC hpos h
  · intro x bq1 hpos h
    unfold Poll at h
    rw [if_neg hpos] at h
    exact dequeue_step inv hC hpos h
  · intro pred x xs v bq1 hx hp h
    obtain ⟨hpos, hread⟩ := front_readAt inv hx
    simp only [CompareAndPoll, if_neg hpos, hread, hp, if_true] at h
    exact dequeue_step inv hC hpos h
  · intro op r bq1 he hlt
    rcases exec_cases inv he with ⟨x, -, -, hp⟩ | ⟨x, -, hpos, -, hd⟩ | ⟨-, e, -⟩
    · obtain ⟨bq2, h2, -, -, hs⟩ := Put_spec x inv (by
        by_contra hc
        have hm := inv.max_eq
        have hle := inv.size_le
        have : bq.size = bq.maxSize := by omega
        simp [Put, this] at hp)
      rw [hp] at h2
      injection h2 with h2
      subst h2
      omega
    · exact dequeue_step inv hC hpos hd
    · rw [e] at hlt
      omega

/-- Instance of C17 on the queue of capacity 3 with `headIdx = 2` and
`tailIdx = 1`: `Take` wraps the head to 0 and keeps the tail. -/
theorem C17_index_stepping_witness :
    Reachable amd64Int 3 (⟨[4, 0, 3], 2, 1, 2, 3⟩ : blockingQueue Int)
    ∧ Take (⟨[4, 0, 3], 2, 1, 2, 3⟩ : blockingQueue Int)
        = Outcome.done (3, ⟨[4, 0, 0], 0, 1, 1, 3⟩)
    ∧ ((0 : Int) = (2 + 1) % 3 ∧ (1 : Int) = 1) :=
  have hr : Reachable amd64Int 3 (⟨[4, 0, 3], 2, 1, 2, 3⟩ : blockingQueue Int) :=
    Reachable.step Op.take (Ret.val 2)
      (Reachable.step (Op.put 4) Ret.unit
        (Reachable.step Op.take (Ret.val 1)
          (Reachable.step (Op.put 3) Ret.unit
            (Reachable.step (Op.put 2) Ret.unit
              (Reachable.step (Op.put 1) Ret.unit (Reachable.init (by rfl)) (by rfl))
              (by rfl))
            (by rfl))
          (by rfl))
        (by rfl))
      (by rfl)
  ⟨hr, by rfl,
    (C17_index_stepping amd64Int 3 (by decide) ⟨[4, 0, 3], 2, 1, 2, 3⟩ hr).2.2.1 3
      ⟨[4, 0, 0], 0, 1, 1, 3⟩ (by rfl)⟩

/-! ## Head, tail and size -/

theorem Inv.tail_emod {C : Int} {bq : blockingQueue T} (inv : Inv C bq) (hC : 1 ≤ C) :
    bq.tailIdx = (bq.headIdx + bq.size) % C := by
  obtain ⟨h1, h2, h3, h4, h5, h6, h7, h8⟩ := inv
  rw [h8]
  split
  · rw [Int.emod_eq_of_lt (by omega) (by omega)]
  · rw [Int.emod_eq_sub_self_emod, Int.emod_eq_of_lt (by omega) (by omega)]

/-- Right after a `Put` that returned, the index `PeekLast` reads is the slot
that `Put` wrote, and the slot holds the item. -/
theorem Put_lastIdx {C : Int} {bq bq1 : blockingQueue T} {item : T} (inv : Inv C bq)
    (h : Put bq item = Outcome.done bq1) :
    lastIdx bq1 = bq.tailIdx ∧ readAt bq1.items bq.tailIdx = some item := by
  have inv1 := Put_inv inv h
  have hlt : bq.size < C := by
    have := inv.size_le
    have := inv.max_eq
    by_contra hc
    have : bq.size = bq.maxSize := by omega
    simp [Put, this] at h
  have hne : bq1.size ≠ 0 := by
    rw [Put_eq item inv hlt] at h
    injection h with h
    subst h
    have := inv.size_nonneg
    simp only
    omega
  have hidx := peekLast_idx inv1 hne
  have ht := inv.tail_toNat hlt
  have hb := inv.tail_bounds hlt
  rw [Put_eq item inv hlt] at h
  injection h with h
  subst h
  obtain ⟨h1, h2, h3, h4, h5, h6, h7, h8⟩ := inv
  refine ⟨?_, ?_⟩
  · unfold lastIdx
    rw [hidx]
    simp only [List.length_set]
    have e : (bq.size + 1).toNat - 1 = bq.size.toNat := by omega
    rw [e, ← ht]
    omega
  · unfold readAt
    rw [if_neg (by omega)]
    simp only
    rw [List.getElem?_set_self (by omega)]

/-- A call that is not a `Put` and leaves the queue non-empty keeps the index
`PeekLast` reads and the slot at that index. -/
theorem exec_lastIdx {a : Arch} [Inhabited T] {C : Int} {bq bq1 : blockingQueue T} {op : Op T}
    {r : Ret T} (inv : Inv C bq) (h : exec a bq op = Outcome.done (r, bq1))
    (hput : putBy op = []) (hpos1 : 0 < bq1.size) :
    0 < bq.size ∧ lastIdx bq1 = lastIdx bq
      ∧ readAt bq1.items (lastIdx bq) = readAt bq.items (lastIdx bq) := by
  rcases exec_cases inv h with ⟨x, e1, -, -⟩ | ⟨x, -, hpos, -, hd⟩ | ⟨-, e, -⟩
  · subst e1
    cases hput
  · have inv1 := dequeue_inv inv hpos hd
    have hi1 := peekLast_idx inv1 (by omega)
    have hi0 := peekLast_idx inv hpos
    obtain ⟨y, hy, -⟩ := readAt_head inv hpos
    rw [dequeue_eq inv hpos hy] at hd
    injection hd with hd
    injection hd with e1 e2
    subst e2
    have hb := inv.head_bounds hpos
    obtain ⟨h1, h2, h3, h4, h5, h6, h7, h8⟩ := inv
    simp only at hpos1
    simp only [List.length_set] at hi1
    have hk : wrapIdx bq.items.length
        (if bq.headIdx + 1 = C then 0 else bq.headIdx + 1).toNat ((bq.size - 1).toNat - 1)
        = wrapIdx bq.items.length bq.headIdx.toNat (bq.size.toNat - 1) := by
      unfold wrapIdx
      split <;> split <;> split <;> omega
    have hne : bq.headIdx.toNat
        ≠ wrapIdx bq.items.length bq.headIdx.toNat (bq.size.toNat - 1) := by
      unfold wrapIdx
      split <;> omega
    refine ⟨by omega, ?_, ?_⟩
    · unfold lastIdx
      rw [hi1, hi0, hk]
    · unfold lastIdx
      rw [hi0]
      have hnn : ¬ ((wrapIdx bq.items.length bq.headIdx.toNat (bq.size.toNat - 1) : Nat)
          : Int) < 0 := by omega
      simp only [readAt, if_neg hnn, Int.toNat_ofNat]
      rw [List.getElem?_set_ne hne]
  · subst e
    exact ⟨hpos1, rfl, rfl⟩

/-- Along a run without `Put`s that ends non-empty the index `PeekLast` reads
and the slot at that index stay as they were. -/
theorem run_lastIdx {a : Arch} [Inhabited T] {C : Int} (ops : List (Op T)) :
    ∀ (bq bq1 : blockingQueue T) (rs : List (Ret T)), Inv C bq →
      run a bq ops = Outcome.done (rs, bq1) → putsOf ops = [] → 0 < bq1.size →
      0 < bq.size ∧ lastIdx bq1 = lastIdx bq
        ∧ readAt bq1.items (lastIdx bq) = readAt bq.items (lastIdx bq) := by
  induction ops with
  | nil =>
    intro bq bq1 rs _ h _ hpos
    simp only [run] at h
    injection h with h
    injection h with _ e
    subst e
    exact ⟨hpos, rfl, rfl⟩
  | cons op ops ih =>
    intro bq bq1 rs inv h hputs hpos
    simp only [putsOf, List.flatMap_cons, List.append_eq_nil] at hputs
    simp only [run] at h
    cases he : exec a bq op with
    | done p =>
      obtain ⟨r, bq2⟩ := p
      rw [he] at h
      simp only at h
      cases hr : run a bq2 ops with
      | done q =>
        obtain ⟨rs1, bq3⟩ := q
        rw [hr] at h
        simp only at h
        injection h with h
        injection h with _ e
        subst e
        obtain ⟨hp2, hi2, hr2⟩ := ih bq2 bq3 rs1 (exec_inv inv he) hr hputs.2 hpos
        obtain ⟨hp1, hi1, hr1⟩ := exec_lastIdx inv he hputs.1 hp2
        refine ⟨hp1, by rw [hi2, hi1], ?_⟩
        rw [← hi1, hr2, hi1, hr1]
      | blocked => rw [hr] at h; cases h
      | panic => rw [hr] at h; cases h
    | blocked => rw [he] at h; cases h
    | panic => rw [he] at h; cases h

/-- C18 (head, tail and size agree).  In a state reachable from
`NewBlockingQueue a C`, `C ≥ 1`: `tailIdx = (headIdx + size) mod C` and
`len(items) = maxSize = C`; while `size < C` the slot at `tailIdx`, which the
next `Put` writes, is none of the `size` live slots; and the index
`(headIdx + size - 1) mod C` is the slot written by the most recent `Put`:
right after that `Put` and after any further calls other than `Put` that
leave the queue non-empty, and that slot holds the item put.  It is the index
`PeekLast` computes, and `PeekLast` returns the item, whenever
`headIdx + size - 1` does not exceed `math.MaxInt`. -/
theorem C18_head_tail_size (a : Arch) [Inhabited T] (C : Int) (hC : 1 ≤ C) (bq : blockingQueue T)
    (hr : Reachable a C bq) :
    bq.tailIdx = (bq.headIdx + bq.size) % C
    ∧ (bq.items.length : Int) = bq.maxSize ∧ bq.maxSize = C
    ∧ (bq.size < C → ∀ i : Nat, (i : Int) < bq.size →
        (bq.headIdx + (i : Int)) % C ≠ bq.tailIdx)
    ∧ ∀ item bq1, Put bq item = Outcome.done bq1 →
        lastIdx bq1 = bq.tailIdx ∧ readAt bq1.items bq.tailIdx = some item
        ∧ (bq1.headIdx + bq1.size - 1 ≤ a.maxInt →
            peekLastIdx a bq1 = bq.tailIdx ∧ PeekLast a bq1 = Outcome.done (item, bq1))
        ∧ ∀ ops rs bq2, run a bq1 ops = Outcome.done (rs, bq2) → putsOf ops = [] →
            0 < bq2.size →
            lastIdx bq2 = bq.tailIdx ∧ readAt bq2.items bq.tailIdx = some item
            ∧ (bq2.headIdx + bq2.size - 1 ≤ a.maxInt →
                peekLastIdx a bq2 = bq.tailIdx
                ∧ PeekLast a bq2 = Outcome.done (item, bq2)) := by
  have inv := hr.inv
  have hm := inv.max_eq
  have hl := inv.len_items
  refine ⟨inv.tail_emod hC, by omega, hm, ?_, ?_⟩
  · intro hlt i hi
    have hi1 : i < bq.size.toNat := by omega
    have ht := inv.tail_toNat hlt
    have hb := inv.tail_bounds hlt
    have he := emod_wrapIdx inv i hi1
    rw [hm] at he
    rw [he]
    intro e
    have e2 : wrapIdx bq.items.length bq.headIdx.toNat i
        = wrapIdx bq.items.length bq.headIdx.toNat bq.size.toNat := by omega
    have := wrapIdx_inj (by omega) (by omega) e2
    omega
  · intro item bq1 hp
    have inv1 := Put_inv inv hp
    obtain ⟨hi, hread⟩ := Put_lastIdx inv hp
    have hpeek : ∀ bq2 : blockingQueue T, bq2.size ≠ 0 → Inv C bq2 →
        lastIdx bq2 = bq.tailIdx → readAt bq2.items bq.tailIdx = some item →
        bq2.headIdx + bq2.size - 1 ≤ a.maxInt →
        peekLastIdx a bq2 = bq.tailIdx ∧ PeekLast a bq2 = Outcome.done (item, bq2) := by
      intro bq2 hne inv2 hi2 hr2 hov
      have hm2 := inv2.max_eq
      have hpl : peekLastIdx a bq2 = bq.tailIdx := by
        rw [peekLastIdx_eq inv2 hov, hi2]
      refine ⟨hpl, ?_⟩
      unfold PeekLast
      rw [if_neg hne, if_neg (by omega)]
      simp only [hpl, hr2]
    have hne1 : bq1.size ≠ 0 := by
      obtain ⟨bq2, h2, -, -, hs⟩ := Put_spec item inv (by
        by_contra hc
        have hle := inv.size_le
        have : bq.size = bq.maxSize := by omega
        simp [Put, this] at hp)
      rw [hp] at h2
      injection h2 with h2
      subst h2
      have := inv.size_nonneg
      omega
    refine ⟨hi, hread, hpeek bq1 hne1 inv1 hi hread, ?_⟩
    intro ops rs bq2 hrun hputs hpos
    obtain ⟨-, hi2, hr2⟩ := run_lastIdx ops bq1 bq2 rs inv1 hrun hputs hpos
    have inv2 := (run_trace ops bq1 bq2 rs inv1 hrun).1
    rw [hi] at hi2 hr2
    rw [hread] at hr2
    exact ⟨hi2, hr2, hpeek bq2 (by omega) inv2 hi2 hr2⟩

/-- Instance of C18: on the queue of capacity 3 holding `[2, 3]` with
`headIdx = 1`, `Put(4)` writes slot 0; after a `Take` and a `Peek` the index
`PeekLast` computes is still slot 0. -/
theorem C18_head_tail_size_witness :
    Reachable amd64Int 3 (⟨[0, 2, 3], 1, 0, 2, 3⟩ : blockingQueue Int)
    ∧ Put (⟨[0, 2, 3], 1, 0, 2, 3⟩ : blockingQueue Int) 4
        = Outcome.done ⟨[4, 2, 3], 1, 1, 3, 3⟩
    ∧ run amd64Int (⟨[4, 2, 3], 1, 1, 3, 3⟩ : blockingQueue Int) [Op.take, Op.peek]
        = Outcome.done ([Ret.val 2, Ret.val 3], ⟨[4, 0, 3], 2, 1, 2, 3⟩)
    ∧ (lastIdx (⟨[4, 0, 3], 2, 1, 2, 3⟩ : blockingQueue Int) = 0
      ∧ readAt ([4, 0, 3] : List Int) 0 = some 4
      ∧ ((2 : Int) + 2 - 1 ≤ amd64Int.maxInt →
          peekLastIdx amd64Int (⟨[4, 0, 3], 2, 1, 2, 3⟩ : blockingQueue Int) = 0
          ∧ PeekLast amd64Int (⟨[4, 0, 3], 2, 1, 2, 3⟩ : blockingQueue Int)
            = Outcome.done (4, ⟨[4, 0, 3], 2, 1, 2, 3⟩))) :=
  have hr : Reachable amd64Int 3 (⟨[0, 2, 3], 1, 0, 2, 3⟩ : blockingQueue Int) :=
    Reachable.step Op.take (Ret.val 1)
      (Reachable.step (Op.put 3) Ret.unit
        (Reachable.step (Op.put 2) Ret.unit
          (Reachable.step (Op.put 1) Ret.unit (Reachable.init (by rfl)) (by rfl))
          (by rfl))
        (by rfl))
      (by rfl)
  ⟨hr, by rfl, by rfl,
    ((C18_head_tail_size amd64Int 3 (by decide) ⟨[0, 2, 3], 1, 0, 2, 3⟩ hr).2.2.2.2 4
      ⟨[4, 2, 3], 1, 1, 3, 3⟩ (by rfl)).2.2.2 [Op.take, Op.peek]
      [Ret.val 2, Ret.val 3] ⟨[4, 0, 3], 2, 1, 2, 3⟩ (by rfl) (by rfl) (by decide)⟩

/-! ## No call panics -/

/-- In a state satisfying the invariant every call returns or waits; for
`PeekLast` on a non-empty queue this needs `headIdx + size - 1` not to
overflow. -/
theorem exec_ne_panic {a : Arch} [Inhabited T] {C : Int} {bq : blockingQueue T} (inv : Inv C bq)
    (op : Op T)
    (hov : op = Op.peekLast → bq.size ≠ 0 → bq.headIdx + bq.size - 1 ≤ a.maxInt) :
    exec a bq op ≠ Outcome.panic := by
  have hm := inv.max_eq
  have hle := inv.size_le
  cases op with
  | put item =>
    by_cases hfull : bq.size = bq.maxSize
    · simp [exec, Put, hfull]
    · obtain ⟨bq1, h1, -⟩ := Put_spec item inv (by omega)
      simp [exec, h1]
  | take =>
    by_cases h0 : bq.size = 0
    · simp [exec, Take, h0, Outcome.ret]
    · obtain ⟨x, bq1, h1, -⟩ := dequeue_spec inv h0
      simp [exec, Take, h0, h1, Outcome.ret]
  | poll =>
    by_cases h0 : bq.size = 0
    · simp [exec, Poll, h0, Outcome.ret]
    · obtain ⟨x, bq1, h1, -⟩ := dequeue_spec inv h0
      simp [exec, Poll, h0, h1, Outcome.ret]
  | compareAndPoll compare =>
    by_cases h0 : bq.size = 0
    · simp [exec, CompareAndPoll, h0, Outcome.ret]
    · obtain ⟨x, bq1, h1, -⟩ := dequeue_spec inv h0
      obtain ⟨y, hy, -⟩ := readAt_head inv h0
      by_cases hc : compare y = true
      · simp [exec, CompareAndPoll, h0, hy, hc, h1, Outcome.ret]
      · simp [exec, CompareAndPoll, h0, hy, hc, Outcome.ret]
  | peek =>
    obtain ⟨r, h⟩ := exec_inspection inv
      (show isInspection (Op.peek : Op T) = true from rfl) hov
    simp [h]
  | peekLast =>
    obtain ⟨r, h⟩ := exec_inspection inv
      (show isInspection (Op.peekLast : Op T) = true from rfl) hov
    simp [h]
  | size =>
    obtain ⟨r, h⟩ := exec_inspection inv
      (show isInspection (Op.size : Op T) = true from rfl) hov
    simp [h]
  | readableSlice =>
    obtain ⟨r, h⟩ := exec_inspection inv
      (show isInspection (Op.readableSlice : Op T) = true from rfl) hov
    simp [h]

/-- C19, as the code has it.  In a reachable state no call other than
`PeekLast` panics, and the indices the methods use are in range: `tailIdx`
when `Put` does not wait; `headIdx` when the queue is non-empty (`dequeue`,
`Peek`, `CompareAndPoll`); in `ReadableSlice` the result index `i < size` and
the read index `(headIdx + i) mod maxSize`.  `PeekLast` never divides by zero,
and `(headIdx + size - 1) mod maxSize` is in range; it is the index
`PeekLast` computes, and `PeekLast` does not panic, whenever
`headIdx + size - 1` does not exceed `math.MaxInt`, which is so in every
reachable state of a queue whose capacity `C` has `2 * C - 2 ≤ math.MaxInt`. -/
theorem C19_no_out_of_range (a : Arch) [Inhabited T] (C : Int) (bq : blockingQueue T)
    (hr : Reachable a C bq) :
    (∀ op : Op T, op ≠ Op.peekLast → exec a bq op ≠ Outcome.panic)
    ∧ (bq.size ≠ bq.maxSize → 0 ≤ bq.tailIdx ∧ bq.tailIdx < (bq.items.length : Int))
    ∧ (bq.size ≠ 0 → 0 ≤ bq.headIdx ∧ bq.headIdx < (bq.items.length : Int))
    ∧ (bq.size ≠ 0 →
        bq.maxSize ≠ 0 ∧ 0 ≤ lastIdx bq ∧ lastIdx bq < (bq.items.length : Int))
    ∧ (bq.size = 0 ∨ bq.headIdx + bq.size - 1 ≤ a.maxInt →
        (bq.size ≠ 0 → peekLastIdx a bq = lastIdx bq)
        ∧ ∀ op : Op T, exec a bq op ≠ Outcome.panic)
    ∧ (2 * C - 2 ≤ a.maxInt → bq.size = 0 ∨ bq.headIdx + bq.size - 1 ≤ a.maxInt)
    ∧ (∃ xs, ReadableSlice bq = Outcome.done (xs, bq) ∧ (xs.length : Int) = bq.size)
    ∧ ∀ i : Nat, (i : Int) < bq.size →
        0 ≤ (bq.headIdx + (i : Int)) % bq.maxSize
        ∧ (bq.headIdx + (i : Int)) % bq.maxSize < (bq.items.length : Int) := by
  have inv := hr.inv
  have hm := inv.max_eq
  have hl := inv.len_items
  have hle := inv.size_le
  have hs0 := inv.size_nonneg
  have hh0 := inv.head_nonneg
  refine ⟨?_, ?_, ?_, ?_, ?_, ?_, ?_, ?_⟩
  · intro op hne
    exact exec_ne_panic inv op (fun e => absurd e hne)
  · intro hne
    have hb := inv.tail_bounds (by omega)
    omega
  · intro hne
    have hb := inv.head_bounds hne
    omega
  · intro hne
    have hidx := peekLast_idx inv hne
    have hb := inv.head_bounds hne
    have hlt : wrapIdx bq.items.length bq.headIdx.toNat (bq.size.toNat - 1)
        < bq.items.length := wrapIdx_lt hb (by omega)
    unfold lastIdx
    rw [hidx]
    omega
  · intro hov
    refine ⟨?_, ?_⟩
    · intro hne
      rcases hov with h | h
      · exact absurd h hne
      · exact peekLastIdx_eq inv h
    · intro op
      refine exec_ne_panic inv op ?_
      intro _ hne
      rcases hov with h | h
      · exact absurd h hne
      · exact h
  · intro hcap
    by_cases h0 : bq.size = 0
    · exact Or.inl h0
    · exact Or.inr (inv.no_overflow hcap h0)
  · refine ⟨contents bq, ReadableSlice_eq inv, ?_⟩
    rw [contents_length]
    omega
  · intro i hi
    have hb := inv.head_bounds (by omega)
    have hlt : wrapIdx bq.items.length bq.headIdx.toNat i < bq.items.length :=
      wrapIdx_lt hb (by omega)
    rw [emod_wrapIdx inv i (by omega)]
    omega

/-- Instance of C19 on the full, wrapped queue of capacity 3 holding
`[2, 3, 4]`: `PeekLast` computes index `(1 + 3 - 1) % 3 = 0`. -/
theorem C19_no_out_of_range_witness :
    Reachable amd64Int 3 (⟨[4, 2, 3], 1, 1, 3, 3⟩ : blockingQueue Int)
    ∧ lastIdx (⟨[4, 2, 3], 1, 1, 3, 3⟩ : blockingQueue Int) = 0
    ∧ ((3 : Int) ≠ 0 →
        peekLastIdx amd64Int (⟨[4, 2, 3], 1, 1, 3, 3⟩ : blockingQueue Int)
          = lastIdx (⟨[4, 2, 3], 1, 1, 3, 3⟩ : blockingQueue Int))
    ∧ (∀ op : Op Int, exec amd64Int (⟨[4, 2, 3], 1, 1, 3, 3⟩ : blockingQueue Int) op
        ≠ Outcome.panic)
    ∧ ((3 : Int) ≠ 0 ∧ 0 ≤ lastIdx (⟨[4, 2, 3], 1, 1, 3, 3⟩ : blockingQueue Int)
        ∧ lastIdx (⟨[4, 2, 3], 1, 1, 3, 3⟩ : blockingQueue Int)
          < (([4, 2, 3] : List Int).length : Int)) :=
  have hr : Reachable amd64Int 3 (⟨[4, 2, 3], 1, 1, 3, 3⟩ : blockingQueue Int) :=
    Reachable.step (Op.put 4) Ret.unit
      (Reachable.step Op.take (Ret.val 1)
        (Reachable.step (Op.put 3) Ret.unit
          (Reachable.step (Op.put 2) Ret.unit
            (Reachable.step (Op.put 1) Ret.unit (Reachable.init (by rfl)) (by rfl))
            (by rfl))
          (by rfl))
        (by rfl))
      (by rfl)
  have h := C19_no_out_of_range amd64Int 3 ⟨[4, 2, 3], 1, 1, 3, 3⟩ hr
  have h5 := h.2.2.2.2.1 (Or.inr (by decide))
  ⟨hr, by rfl, h5.1, h5.2, h.2.2.2.1 (by decide)⟩

/-! ## Reaching a full queue with the head anywhere -/

/-- From the fresh queue, `n ≤ C` calls of `Put` reach a state with `size = n`
and the head at slot 0. -/
theorem reach_fill {a : Arch} [Inhabited T] {C : Int} {bq0 : blockingQueue T}
    (hC : 1 ≤ C) (h0 : NewBlockingQueue a C = Outcome.done bq0) :
    ∀ n : Nat, (n : Int) ≤ C →
      ∃ bq : blockingQueue T, Reachable a C bq ∧ bq.headIdx = 0 ∧ bq.size = n := by
  intro n
  induction n with
  | zero =>
    intro _
    refine ⟨bq0, Reachable.init h0, ?_, ?_⟩
    · unfold NewBlockingQueue at h0
      split at h0
      · cases h0
      · injection h0 with h0
        subst h0
        rfl
    · unfold NewBlockingQueue at h0
      split at h0
      · cases h0
      · injection h0 with h0
        subst h0
        rfl
  | succ n ih =>
    intro hn
    obtain ⟨bq, hr, hh, hs⟩ := ih (by omega)
    have inv := hr.inv
    obtain ⟨bq1, hp, -, -, hs1⟩ := Put_spec (default : T) inv (by omega)
    have hh1 := (Put_step inv hC hp).2
    refine ⟨bq1, Reachable.step (Op.put default) Ret.unit hr
      (by simp only [exec, hp]), ?_, ?_⟩
    · rw [hh1, hh]
    · rw [hs1, hs]
      omega

/-- A full queue with the head at slot `k` is reachable for every `k < C`:
fill the queue, then `k` times `Take` and `Put`. -/
theorem reach_full {a : Arch} [Inhabited T] {C : Int} {bq0 : blockingQueue T}
    (hC : 1 ≤ C) (h0 : NewBlockingQueue a C = Outcome.done bq0) :
    ∀ k : Nat, (k : Int) < C →
      ∃ bq : blockingQueue T, Reachable a C bq ∧ bq.headIdx = k ∧ bq.size = C := by
  intro k
  induction k with
  | zero =>
    intro hk
    obtain ⟨bq, hr, hh, hs⟩ := reach_fill hC h0 C.toNat (by omega)
    exact ⟨bq, hr, by simpa using hh, by omega⟩
  | succ k ih =>
    intro hk
    obtain ⟨bq, hr, hh, hs⟩ := ih (by omega)
    have inv := hr.inv
    have hpos : bq.size ≠ 0 := by omega
    obtain ⟨x, bq1, hd, inv1, -, hs1⟩ := dequeue_spec inv hpos
    have hh1 := (dequeue_step inv hC hpos hd).1
    have hr1 : Reachable a C bq1 := Reachable.step Op.take (Ret.val x) hr
      (by simp only [exec, Take, if_neg hpos, hd, Outcome.ret])
    obtain ⟨bq2, hp, -, -, hs2⟩ := Put_spec (default : T) inv1 (by omega)
    have hh2 := (Put_step inv1 hC hp).2
    refine ⟨bq2, Reachable.step (Op.put default) Ret.unit hr1
      (by simp only [exec, hp]), ?_, ?_⟩
    · rw [hh2, hh1, hh, Int.emod_eq_of_lt (by omega) (by omega)]
      omega
    · rw [hs2, hs1, hs]
      omega

/-- C9 as stated fails where `headIdx + size - 1` exceeds `math.MaxInt`.  On
linux/386 with one-byte elements and capacity `2 ^ 30 + 2` the full queue with
the head at the last slot is reachable; there `headIdx + size - 1` is
`2 ^ 31 + 2`, the index `PeekLast` computes is negative, and `PeekLast`
panics instead of returning the last element. -/
theorem C9_peek_last_overflow :
    ∃ bq : blockingQueue Bool,
      Reachable i386Byte 1073741826 bq
      ∧ bq.headIdx = 1073741825 ∧ bq.size = 1073741826 ∧ 0 < bq.size
      ∧ peekLastIdx i386Byte bq = -1073741820
      ∧ PeekLast i386Byte bq = Outcome.panic := by
  have h0 : ∃ bq0 : blockingQueue Bool,
      NewBlockingQueue i386Byte 1073741826 = Outcome.done bq0 := by
    unfold NewBlockingQueue
    rw [if_neg (by decide)]
    exact ⟨_, rfl⟩
  obtain ⟨bq0, h0⟩ := h0
  obtain ⟨bq, hr, hh, hs⟩ := reach_full (by decide) h0 1073741825 (by decide)
  have hm := hr.inv.max_eq
  have hh1 : bq.headIdx = 1073741825 := by simpa using hh
  have hidx : peekLastIdx i386Byte bq = -1073741820 := by
    unfold peekLastIdx
    rw [hh1, hs, hm]
    decide
  refine ⟨bq, hr, hh1, hs, by omega, hidx, ?_⟩
  unfold PeekLast
  rw [if_neg (by omega), if_neg (by omega)]
  simp only [hidx, readAt]
  rfl

/-- C19 as stated fails where `headIdx + size - 1` exceeds `math.MaxInt`.  On
linux/386 with one-byte elements and capacity `2 ^ 31 - 1` the full queue with
the head at slot 2 is reachable; there `headIdx + size - 1` is `2 ^ 31`, which
wraps to `-2 ^ 31`, the index `PeekLast` computes is `-1`, and the call
panics. -/
theorem C19_peek_last_out_of_range :
    ∃ bq : blockingQueue Bool,
      Reachable i386Byte 2147483647 bq
      ∧ bq.headIdx = 2 ∧ bq.size = 2147483647
      ∧ peekLastIdx i386Byte bq = -1
      ∧ exec i386Byte bq Op.peekLast = Outcome.panic := by
  have h0 : ∃ bq0 : blockingQueue Bool,
      NewBlockingQueue i386Byte 2147483647 = Outcome.done bq0 := by
    unfold NewBlockingQueue
    rw [if_neg (by decide)]
    exact ⟨_, rfl⟩
  obtain ⟨bq0, h0⟩ := h0
  obtain ⟨bq, hr, hh, hs⟩ := reach_full (by decide) h0 2 (by decide)
  have hm := hr.inv.max_eq
  have hh1 : bq.headIdx = 2 := by simpa using hh
  have hidx : peekLastIdx i386Byte bq = -1 := by
    unfold peekLastIdx
    rw [hh1, hs, hm]
    decide
  refine ⟨bq, hr, hh1, hs, hidx, ?_⟩
  have hp : PeekLast i386Byte bq = Outcome.panic := by
    unfold PeekLast
    rw [if_neg (by omega), if_neg (by omega)]
    simp only [hidx, readAt]
    rfl
  simp only [exec, hp, Outcome.ret]

/-! ## Construction -/

/-- The only state reachable from `NewBlockingQueue a 0` is the queue without
slots. -/
theorem Inv.zero_cap {bq : blockingQueue T} (inv : Inv 0 bq) :
    bq = ⟨[], 0, 0, 0, 0⟩ := by
  obtain ⟨h1, h2, h3, h4, h5, h6, h7, h8⟩ := inv
  obtain ⟨items, headIdx, tailIdx, size, maxSize⟩ := bq
  simp only at h2 h3 h4 h5 h6 h7 h8
  have e1 : items = [] := List.length_eq_zero.mp (by omega)
  have e2 : headIdx = 0 := by omega
  have e3 : size = 0 := by omega
  have e4 : tailIdx = 0 := by
    rw [h8, e2, e3]
    rfl
  rw [e1, e2, e3, e4, h3]

/-- C12, as the code has it.  `NewBlockingQueue a maxSize` panics at construction
for every `maxSize < 0` (and for every `maxSize` above the largest length
`make` accepts) and returns an empty queue with `maxSize` slots for every
other `maxSize`, zero included.  The queue `NewBlockingQueue a 0` returns
never changes: on it no call panics, every `Put` and every `Take` waits, and
`Poll`, `CompareAndPoll`, `Peek` and `PeekLast` return the zero value. -/
theorem C12_construction (a : Arch) [Inhabited T] (maxSize : Int) :
    (maxSize < 0 → (NewBlockingQueue a maxSize : Outcome (blockingQueue T)) = Outcome.panic)
    ∧ (a.maxLen < maxSize →
        (NewBlockingQueue a maxSize : Outcome (blockingQueue T)) = Outcome.panic)
    ∧ (0 ≤ maxSize → maxSize ≤ a.maxLen → ∃ bq : blockingQueue T,
        NewBlockingQueue a maxSize = Outcome.done bq ∧ bq.maxSize = maxSize
        ∧ (bq.items.length : Int) = maxSize ∧ bq.size = 0)
    ∧ (NewBlockingQueue a 0 : Outcome (blockingQueue T)) = Outcome.done ⟨[], 0, 0, 0, 0⟩
    ∧ ∀ bq : blockingQueue T, Reachable a 0 bq →
        bq = ⟨[], 0, 0, 0, 0⟩
        ∧ (∀ op : Op T, exec a bq op ≠ Outcome.panic)
        ∧ (∀ item, Put bq item = Outcome.blocked)
        ∧ Take bq = Outcome.blocked
        ∧ Poll bq = Outcome.done (default, bq)
        ∧ (∀ pred, CompareAndPoll bq pred = Outcome.done (default, bq))
        ∧ Peek bq = Outcome.done (default, bq)
        ∧ PeekLast a bq = Outcome.done (default, bq) := by
  have hlen := a.maxLen_nonneg
  refine ⟨?_, ?_, ?_, ?_, ?_⟩
  · intro h
    unfold NewBlockingQueue
    rw [if_pos (Or.inl h)]
  · intro h
    unfold NewBlockingQueue
    rw [if_pos (Or.inr h)]
  · intro h1 h2
    refine ⟨_, by unfold NewBlockingQueue; rw [if_neg (by omega)], rfl, ?_, rfl⟩
    simp only [List.length_replicate]
    omega
  · unfold NewBlockingQueue
    rw [if_neg (by omega)]
    rfl
  · intro bq hr
    have inv := hr.inv
    have e := inv.zero_cap
    have hnp : ∀ op : Op T, exec a bq op ≠ Outcome.panic := by
      intro op
      refine exec_ne_panic inv op ?_
      intro _ hne
      exact absurd (by rw [e]) hne
    refine ⟨e, hnp, ?_, ?_, ?_, ?_, ?_, ?_⟩ <;> subst e
    · intro item
      rfl
    · rfl
    · rfl
    · intro pred
      rfl
    · rfl
    · rfl

/-- Instance of C12 on linux/amd64 with `int` elements: the constructor panics
at `maxSize = -1` and at `maxSize = 2 ^ 62`. -/
theorem C12_construction_witness :
    (-1 : Int) < 0
    ∧ (NewBlockingQueue amd64Int (-1) : Outcome (blockingQueue Int)) = Outcome.panic
    ∧ amd64Int.maxLen < 4611686018427387904
    ∧ (NewBlockingQueue amd64Int 4611686018427387904 : Outcome (blockingQueue Int))
        = Outcome.panic :=
  ⟨by decide, (C12_construction amd64Int (-1)).1 (by decide), by decide,
    (C12_construction amd64Int 4611686018427387904).2.1 (by decide)⟩

/-- C12 as stated fails at `maxSize = 0`: the constructor returns a queue, on
which `Put` and `Take` wait and `Poll` returns the zero value. -/
theorem C12_zero_capacity_accepted :
    (0 : Int) ≤ 0
    ∧ (NewBlockingQueue amd64Int 0 : Outcome (blockingQueue Int))
        = Outcome.done ⟨[], 0, 0, 0, 0⟩
    ∧ Put (⟨[], 0, 0, 0, 0⟩ : blockingQueue Int) 7 = Outcome.blocked
    ∧ Take (⟨[], 0, 0, 0, 0⟩ : blockingQueue Int) = Outcome.blocked
    ∧ Poll (⟨[], 0, 0, 0, 0⟩ : blockingQueue Int)
        = Outcome.done (0, ⟨[], 0, 0, 0, 0⟩)
    ∧ ¬ ∀ maxSize : Int, maxSize ≤ 0 →
        (NewBlockingQueue amd64Int maxSize : Outcome (blockingQueue Int)) = Outcome.panic := by
  refine ⟨by decide, by rfl, by rfl, by rfl, by rfl, ?_⟩
  intro h
  have h0 := h 0 (by decide)
  have h1 : (NewBlockingQueue amd64Int 0 : Outcome (blockingQueue Int))
      = Outcome.done ⟨[], 0, 0, 0, 0⟩ := by rfl
  rw [h1] at h0
  cases h0

/-! ## Goroutines and the two condition variables -/

/-- C14 (blocking wake-up), evaluated on a schedule with two consumers.  On a
fresh queue of capacity 2 goroutines 1 and 2 call `Take` and park; goroutine 3
calls `Put(10)`, which signals goroutine 1, and then `Put(20)` before
goroutine 1 has the mutex back: `size` is 1, so `wasEmpty` is false and nothing
is signalled; goroutine 1 resumes and takes 10.  Afterwards the queue holds 20,
goroutine 2 is still parked in `Take`, and no goroutine has been woken, so no
goroutine inside a call can run; a further `Put` on the non-empty queue does
not wake goroutine 2 either. -/
theorem C14_consumer_left_parked :
    (NewBlockingQueue amd64Int 2 : Outcome (blockingQueue Int))
        = Outcome.done ⟨[0, 0], 0, 0, 0, 2⟩
    ∧ runSched (Sys.start (⟨[0, 0], 0, 0, 0, 2⟩ : blockingQueue Int))
        [Act.callTake 1, Act.callTake 2, Act.callPut 3 10, Act.callPut 3 20,
          Act.wakeTake 1]
      = some
        { bq := ⟨[0, 20], 1, 0, 1, 2⟩
          notEmptyWait := [2], notFullWait := [], wokenTake := [], wokenPut := []
          returned := [(3, Ret.unit), (3, Ret.unit), (1, Ret.val 10)] }
    ∧ ReadableSlice (⟨[0, 20], 1, 0, 1, 2⟩ : blockingQueue Int)
        = Outcome.done ([20], ⟨[0, 20], 1, 0, 1, 2⟩)
    ∧ sysStep
        ({ bq := ⟨[0, 20], 1, 0, 1, 2⟩
           notEmptyWait := [2], notFullWait := [], wokenTake := [], wokenPut := []
           returned := [(3, Ret.unit), (3, Ret.unit), (1, Ret.val 10)] } : Sys Int)
        (Act.wakeTake 2) = none
    ∧ (∀ g : Nat,
        sysStep
          ({ bq := ⟨[0, 20], 1, 0, 1, 2⟩
             notEmptyWait := [2], notFullWait := [], wokenTake := [], wokenPut := []
             returned := [(3, Ret.unit), (3, Ret.unit), (1, Ret.val 10)] } : Sys Int)
          (Act.wakeTake g) = none
        ∧ sysStep
          ({ bq := ⟨[0, 20], 1, 0, 1, 2⟩
             notEmptyWait := [2], notFullWait := [], wokenTake := [], wokenPut := []
             returned := [(3, Ret.unit), (3, Ret.unit), (1, Ret.val 10)] } : Sys Int)
          (Act.wakePut g) = none)
    ∧ runSched (Sys.start (⟨[0, 0], 0, 0, 0, 2⟩ : blockingQueue Int))
        [Act.callTake 1, Act.callTake 2, Act.callPut 3 10, Act.callPut 3 20,
          Act.wakeTake 1, Act.callPut 3 30]
      = some
        { bq := ⟨[30, 20], 1, 1, 2, 2⟩
          notEmptyWait := [2], notFullWait := [], wokenTake := [], wokenPut := []
          returned := [(3, Ret.unit), (3, Ret.unit), (1, Ret.val 10), (3, Ret.unit)] } := by
  refine ⟨by rfl, by rfl, by rfl, by rfl, fun g => ⟨by rfl, by rfl⟩, by rfl⟩

/-! ## `Map.LoadOrStoreLazy` -/

/-- C15 (`Map.LoadOrStoreLazy`).  If `key` is absent the call returns
`(fn(), false)` and afterwards `fn()` is stored under `key`, every other key
being as before; if `key` holds `v` the call returns `(v, true)`, does not
call `fn`, and the store is unchanged. -/
theorem C15_load_or_store_lazy {K V : Type} [DecidableEq K] (m : Map K V) (key : K)
    (fn : Unit → V) :
    (m.Load key = none →
      (m.LoadOrStoreLazy key fn).value = fn ()
      ∧ (m.LoadOrStoreLazy key fn).loaded = false
      ∧ (m.LoadOrStoreLazy key fn).store.Load key = some (fn ())
      ∧ ∀ k, k ≠ key → (m.LoadOrStoreLazy key fn).store.Load k = m.Load k)
    ∧ ∀ v, m.Load key = some v →
        (m.LoadOrStoreLazy key fn).value = v
        ∧ (m.LoadOrStoreLazy key fn).loaded = true
        ∧ (m.LoadOrStoreLazy key fn).calls = 0
        ∧ (m.LoadOrStoreLazy key fn).store = m
        ∧ (m.LoadOrStoreLazy key fn).store.Load key = some v := by
  refine ⟨?_, ?_⟩
  · intro h
    have e : m.LoadOrStoreLazy key fn
        = { value := fn (), loaded := false, store := m.Store key (fn ()), calls := 1 } := by
      simp only [Map.LoadOrStoreLazy, h]
    rw [e]
    refine ⟨rfl, rfl, ?_, ?_⟩
    · simp [Map.Load, Map.Store]
    · intro k hk
      simp [Map.Load, Map.Store, hk]
  · intro v h
    have e : m.LoadOrStoreLazy key fn
        = { value := v, loaded := true, store := m, calls := 0 } := by
      simp only [Map.LoadOrStoreLazy, h]
    rw [e]
    exact ⟨rfl, rfl, rfl, rfl, h⟩

/-- Instance of C15, the two calls of `TestMap_LoadOrStoreLazy`: on the empty
map the call with `fn` returning 42 gives `(42, false)`; on the resulting map
the call with a function returning 99 gives `(42, true)` without calling it. -/
theorem C15_load_or_store_lazy_witness :
    ((Map.empty : Map String Int).LoadOrStoreLazy "lazyKey" (fun _ => 42)).value = 42
    ∧ ((Map.empty : Map String Int).LoadOrStoreLazy "lazyKey" (fun _ => 42)).loaded = false
    ∧ ((((Map.empty : Map String Int).LoadOrStoreLazy "lazyKey" (fun _ => 42)).store).LoadOrStoreLazy
        "lazyKey" (fun _ => 99)).value = 42
    ∧ ((((Map.empty : Map String Int).LoadOrStoreLazy "lazyKey" (fun _ => 42)).store).LoadOrStoreLazy
        "lazyKey" (fun _ => 99)).loaded = true
    ∧ ((((Map.empty : Map String Int).LoadOrStoreLazy "lazyKey" (fun _ => 42)).store).LoadOrStoreLazy
        "lazyKey" (fun _ => 99)).calls = 0 :=
  have h1 := (C15_load_or_store_lazy (Map.empty : Map String Int) "lazyKey"
    (fun _ => 42)).1 (by rfl)
  have h2 := (C15_load_or_store_lazy
    ((Map.empty : Map String Int).LoadOrStoreLazy "lazyKey" (fun _ => 42)).store
    "lazyKey" (fun _ => 99)).2 42 h1.2.2.1
  ⟨h1.1, h1.2.1, h2.1, h2.2.1, h2.2.2.1⟩

end syncx

namespace set

variable {T : Type}

/-! ## `Add`, `Remove`, `Contains`, `Len` -/

/-- C20, as the code has it.  Let `x` be a key that can be hashed.  For every
non-nil `Set` `s`, if `x == x`: `Add(x)` returns, afterwards `Contains(x)` is
true, `Contains(y)` is as before for every `y` with `y != x`, `Len` is one more
if `x` was not contained and the same otherwise, and a second `Add(x)` changes
nothing.  For every `Set` `s`, nil or not: `Remove(x)` returns, afterwards
`Contains(x)` is false, `Contains(y)` is as before for every `y` with
`y != x`, `Len` is one less if `x` was contained and the same otherwise, and
`Remove` of an element that is not contained leaves the set as it is. -/
theorem C20_set_membership [DecidableEq T] [Comparable T] (s : Set T) (x y : T)
    (hx : Comparable.hashable x = true) :
    (s ≠ Set.nil → Comparable.reflexive x = true →
      ∃ s1, s.Add x = some s1 ∧ s1 ≠ Set.nil
        ∧ s1.Contains x = some true
        ∧ (goEq y x = false → s1.Contains y = s.Contains y)
        ∧ s1.Len = (if s.Contains x = some true then s.Len else s.Len + 1)
        ∧ s1.Add x = some s1)
    ∧ ∃ s2, s.Remove x = some s2
        ∧ s2.Contains x = some false
        ∧ (goEq y x = false → s2.Contains y = s.Contains y)
        ∧ s2.Len = (if s.Contains x = some true then s.Len - 1 else s.Len)
        ∧ (s.Contains x = some false → s2 = s) := by
  cases s with
  | nil =>
    refine ⟨fun h => absurd rfl h, Set.nil, ?_, ?_, ?_, ?_, ?_⟩
    · simp [Set.Remove, hx]
    · simp [Set.Contains, hx]
    · intro _
      rfl
    · simp [Set.Contains, Set.Len, hx]
    · intro _
      rfl
  | map keys loose =>
    refine ⟨?_, ?_⟩
    · intro _ hr
      have hyx : goEq y x = false → y ≠ x := by
        intro h e
        subst e
        simp [goEq, hr] at h
      refine ⟨Set.map (insert x keys) loose, ?_, by simp, ?_, ?_, ?_, ?_⟩
      · simp [Set.Add, hx, hr]
      · simp [Set.Contains, hx, hr]
      · intro h
        have hne := hyx h
        simp [Set.Contains, hne]
      · by_cases hm : x ∈ keys
        · simp [Set.Contains, Set.Len, hx, hr, hm]
        · simp only [Set.Contains, Set.Len, hx, hr, hm, if_true, decide_False,
            Finset.card_insert_of_not_mem hm]
          simp
          omega
      · simp [Set.Add, hx, hr]
    · by_cases hr : Comparable.reflexive x = true
      · have hyx : goEq y x = false → y ≠ x := by
          intro h e
          subst e
          simp [goEq, hr] at h
        refine ⟨Set.map (keys.erase x) loose, ?_, ?_, ?_, ?_, ?_⟩
        · simp [Set.Remove, hx, hr]
        · simp [Set.Contains, hx, hr]
        · intro h
          have hne := hyx h
          simp [Set.Contains, hne]
        · by_cases hm : x ∈ keys
          · have hpos : 0 < keys.card := Finset.card_pos.mpr ⟨x, hm⟩
            simp only [Set.Contains, Set.Len, hx, hr, hm, if_true, decide_True,
              Finset.card_erase_of_mem hm]
            omega
          · simp [Set.Contains, Set.Len, hx, hr, hm]
        · intro h
          have hm : x ∉ keys := by simpa [Set.Contains, hx, hr] using h
          simp [Finset.erase_eq_of_not_mem hm]
      · have hr0 : Comparable.reflexive x = false := by simpa using hr
        refine ⟨Set.map keys loose, ?_, ?_, ?_, ?_, ?_⟩
        · simp [Set.Remove, hx, hr0]
        · simp [Set.Contains, hx, hr0]
        · intro _
          rfl
        · simp [Set.Contains, hx, hr0]
        · intro _
          rfl

/-- Instance of C20 on the set `{1, 2}` of `int`s with `x = 3`, `y = 1`. -/
theorem C20_set_membership_witness :
    Comparable.hashable (3 : Int) = true
    ∧ (Set.map {1, 2} [] : Set Int) ≠ Set.nil
    ∧ Comparable.reflexive (3 : Int) = true
    ∧ ∃ s1, (Set.map {1, 2} [] : Set Int).Add 3 = some s1 ∧ s1 ≠ Set.nil
        ∧ s1.Contains 3 = some true
        ∧ (goEq (1 : Int) 3 = false
            → s1.Contains 1 = (Set.map {1, 2} [] : Set Int).Contains 1)
        ∧ s1.Len = (if (Set.map {1, 2} [] : Set Int).Contains 3 = some true
            then (Set.map {1, 2} [] : Set Int).Len
            else (Set.map {1, 2} [] : Set Int).Len + 1)
        ∧ s1.Add 3 = some s1 :=
  ⟨rfl, by decide, rfl,
    (C20_set_membership (Set.map {1, 2} [] : Set Int) 3 1 rfl).1 (by decide) rfl⟩

/-- C20 as stated fails in three ways.  On the nil `Set`, the zero value of
the type, `Add` panics.  On the empty non-nil `Set[any]`, `Add` of a NaN
returns but `Contains` does not find it, and a second `Add` makes a second
entry, so `Add` is not idempotent.  On the same set `Add` of a slice value
panics, as do `Contains` and `Remove`. -/
theorem C20_add_fails :
    (Set.nil : Set Int).Add 1 = none
    ∧ (NewWithCap 0 : Set AnyKey) = Set.map ∅ []
    ∧ (Set.map ∅ [] : Set AnyKey).Add AnyKey.nan = some (Set.map ∅ [AnyKey.nan])
    ∧ (Set.map ∅ [AnyKey.nan] : Set AnyKey).Contains AnyKey.nan = some false
    ∧ (Set.map ∅ [AnyKey.nan] : Set AnyKey).Add AnyKey.nan
        = some (Set.map ∅ [AnyKey.nan, AnyKey.nan])
    ∧ (Set.map ∅ [AnyKey.nan, AnyKey.nan] : Set AnyKey).Len = 2
    ∧ (Set.map ∅ [] : Set AnyKey).Add (AnyKey.slice [1]) = none
    ∧ (Set.map ∅ [] : Set AnyKey).Contains (AnyKey.slice [1]) = none
    ∧ (Set.map ∅ [] : Set AnyKey).Remove (AnyKey.slice [1]) = none
    ∧ ¬ ∀ (s : Set Int) (x : Int), ∃ s1, s.Add x = some s1 ∧ s1.Contains x = some true := by
  refine ⟨rfl, rfl, rfl, rfl, rfl, rfl, rfl, rfl, rfl, ?_⟩
  intro h
  obtain ⟨s1, h1, -⟩ := h Set.nil 1
  cases h1

end set
